import Mathlib

set_option maxRecDepth 100000

/-!
# Verification of the Arrows puzzle core (generator + validator)

Shallow embedding of `backend/app/services/generator.py` and
`backend/app/api/game.py` (the seeded PRNG, grid, DAG, arrow grower,
level generator, reference solver and the fast move validator), together
with proofs and refutations of the specified properties.

Conventions of the embedding:

* CPython `float`s are IEEE-754 binary64 values; every float the code
  produces is an exactly representable rational number.  We model a float
  by its exact rational value and model each float-producing operation
  (int/int true division, float*int multiplication, float literals,
  decimal `round(x, 2)`) by correct rounding to 53 significant bits with
  ties-to-even (`roundDouble`), which is exactly CPython's arithmetic.
  Subnormals and overflow never arise for the quantities involved.
* Python `dict`/`set` state is modelled by functions updated with
  `Function.update`, by association lists, or by `Finset`s; mutation is
  modelled by explicit state passing.
* Python run-time errors (an `IndexError` from an out-of-range list
  index, reachable because `next_int` can exceed its upper bound when the
  LCG state reaches `0x7FFFFFFF`) are modelled by `Option`: a result of
  `none` means the Python code raises instead of returning.
-/

/-! ## Exact model of IEEE-754 binary64 rounding (round to nearest, ties to even) -/

/-- Round a rational to the nearest integer, ties to even
(the rounding used inside correctly rounded binary64 operations). -/
def rhe (q : ℚ) : ℤ :=
  let f : ℤ := ⌊q⌋
  let r : ℚ := q - f
  if r < 1/2 then f
  else if 1/2 < r then f + 1
  else if Even f then f else f + 1

/-- Fuelled `⌊log₂ n⌋` (`n/2` strictly decreases, so fuel `n` always
suffices; written with fuel so that it reduces by iota in the kernel). -/
def natLog2F : ℕ → ℕ → ℕ
  | 0, _ => 0
  | fuel + 1, n => if 2 ≤ n then natLog2F fuel (n / 2) + 1 else 0

/-- `⌊log₂ n⌋` (0 at 0). -/
def natLog2 (n : ℕ) : ℕ := natLog2F n n

/-- `⌊log₂ q⌋` for a positive rational, computed from the bit lengths of
numerator and denominator and corrected by direct comparison. -/
def floorLog2Q (q : ℚ) : ℤ :=
  let e0 : ℤ := (natLog2 q.num.toNat : ℤ) - (natLog2 q.den : ℤ)
  if (2:ℚ)^(e0+1) ≤ q then e0 + 1
  else if q < (2:ℚ)^e0 then e0 - 1
  else e0

/-- Correct rounding of a nonnegative rational to a binary64 value
(53 significant bits, round to nearest, ties to even).  All values passed
to it in this development are far from the subnormal and overflow ranges,
so normal-range rounding is the faithful model. -/
def roundDouble (q : ℚ) : ℚ :=
  if 0 < q then
    (rhe (q * (2:ℚ)^((52:ℤ) - floorLog2Q q)) : ℚ) * (2:ℚ)^(floorLog2Q q - (52:ℤ))
  else 0

/-- The binary64 value of the Python float literal `0.8`. -/
def lit08 : ℚ := roundDouble (4/5)

/-- The binary64 value of a Python decimal float literal `a / 10^k`. -/
def litDec (a : ℤ) (k : ℕ) : ℚ := roundDouble ((a : ℚ) / (10:ℚ)^k)

/-- CPython `round(x, 2)` on a (nonnegative) float `x`: round the exact
value half-to-even at two decimal digits, then return the nearest
binary64 value of that decimal. -/
def pyRound2 (q : ℚ) : ℚ := roundDouble ((rhe (q * 100) : ℚ) / 100)

/-! ## SeededRandom (`generator.py`, class `SeededRandom`)

The generator's PRNG: a 31-bit LCG.  `_state` is an arbitrary Python int
before the first draw and lies in `[0, 2^31)` afterwards.  The state is
threaded explicitly; each operation returns its result together with the
new state. -/

namespace SeededRandom

/-- `next(self)`: advance the LCG and return `state / 0x7FFFFFFF` as a
binary64 float (exact rational value), with the new state. -/
def next (s : ℤ) : ℚ × ℤ :=
  let s2 : ℤ := (s * 1103515245 + 12345) % (2^31 : ℤ)
  (roundDouble ((s2 : ℚ) / ((2^31 : ℚ) - 1)), s2)

/-- `next_int(self, min_val, max_val)`:
`min_val + int(self.next() * (max_val - min_val + 1))`.
The multiplication converts the int range to binary64 and multiplies with
correct rounding; `int(·)` truncates (here the operand is ≥ 0, so it
floors). -/
def next_int (mn mx : ℤ) (s : ℤ) : ℤ × ℤ :=
  if mn > mx then (mn, s)
  else
    let p := next s
    (mn + ⌊roundDouble (p.1 * roundDouble ((mx - mn + 1 : ℤ) : ℚ))⌋, p.2)

/-- One descending step `i, i-1, …, 1` of the Fisher–Yates loop in
`shuffle`.  `result[i], result[j] = result[j], result[i]` raises
`IndexError` (modelled as `none`) if `j` is out of range, which happens
exactly when `next_int` overflows its bound. -/
def shuffleAux {α : Type} : ℕ → List α → ℤ → Option (List α × ℤ)
  | 0, result, s => some (result, s)
  | i + 1, result, s =>
    let p := next_int 0 (i + 1 : ℕ) s
    let j := p.1
    if 0 ≤ j then
      match result.get? (i+1), result.get? j.toNat with
      | some vi, some vj =>
          shuffleAux i ((result.set (i+1) vj).set j.toNat vi) p.2
      | _, _ => none
    else none

/-- `shuffle(self, arr)`: Fisher–Yates on a copy. -/
def shuffle {α : Type} (arr : List α) (s : ℤ) : Option (List α × ℤ) :=
  shuffleAux (arr.length - 1) arr s

/-- `choice(self, arr)`: `None` on an empty list (inner `none`), else
`arr[self.next_int(0, len(arr) - 1)]`; an out-of-range index raises
(outer `none`). -/
def choice {α : Type} (arr : List α) (s : ℤ) : Option (Option α × ℤ) :=
  if arr.isEmpty then some (none, s)
  else
    let p := next_int 0 ((arr.length : ℤ) - 1) s
    if h : 0 ≤ p.1 ∧ p.1.toNat < arr.length then
      some (some (arr.get ⟨p.1.toNat, h.2⟩), p.2)
    else none

end SeededRandom

/-! ## Directions, cells, arrows (`generator.py` constants and data model) -/

/-- The four movement directions. -/
inductive Dir where
  | up
  | down
  | left
  | right
deriving DecidableEq, Repr

/-- A board cell `(x, y)`. -/
abbrev Cell := ℤ × ℤ

/-- `DIRECTIONS`. -/
def DIRECTIONS : List Dir := [.up, .down, .left, .right]

/-- `DIRECTION_VECTORS`. -/
def DIRECTION_VECTORS : Dir → ℤ × ℤ
  | .up => (0, -1)
  | .down => (0, 1)
  | .left => (-1, 0)
  | .right => (1, 0)

/-- `move_in_direction`. -/
def move_in_direction (pos : Cell) (d : Dir) : Cell :=
  (pos.1 + (DIRECTION_VECTORS d).1, pos.2 + (DIRECTION_VECTORS d).2)

/-- `rotate_90_cw`. -/
def rotate_90_cw : Dir → Dir
  | .up => .right
  | .right => .down
  | .down => .left
  | .left => .up

/-- `rotate_90_ccw`. -/
def rotate_90_ccw : Dir → Dir
  | .up => .left
  | .left => .down
  | .down => .right
  | .right => .up

/-- An arrow as both the generator and the validator consume it: a stable
id, the ordered cell list (head first), and the invariant head→neck
direction.  The embedding gives every arrow a direction (every arrow in
the system's level data has one; the validator's fallback branch for a
missing/invalid `direction` key has no counterpart here). -/
structure Arrow where
  id : String
  cells : List Cell
  direction : Dir
deriving DecidableEq, Repr

/-! ## Grid (`generator.py`, class `Grid`) -/

/-- The generator's occupancy grid: bounds, the occupied-cell set and the
cell→owning-arrow map (a Python dict, modelled as a function). -/
structure Grid where
  width : ℤ
  height : ℤ
  occupied : Finset Cell
  cell_to_arrow : Cell → Option String

namespace Grid

/-- `is_occupied`. -/
def is_occupied (g : Grid) (p : Cell) : Bool := p ∈ g.occupied

/-- `is_valid`. -/
def is_valid (g : Grid) (p : Cell) : Bool :=
  0 ≤ p.1 ∧ p.1 < g.width ∧ 0 ≤ p.2 ∧ p.2 < g.height

/-- `is_valid_and_free`. -/
def is_valid_and_free (g : Grid) (p : Cell) : Bool :=
  g.is_valid p && !(g.is_occupied p)

/-- `mark_occupied`. -/
def mark_occupied (g : Grid) (p : Cell) (aid : String) : Grid :=
  { g with occupied := insert p g.occupied,
           cell_to_arrow := Function.update g.cell_to_arrow p (some aid) }

end Grid

/-- `get_outward_direction` (Python `//` is floor division; the grid
dimensions are positive). -/
def get_outward_direction (pos : Cell) (g : Grid) : Dir :=
  let cx := Int.ediv g.width 2
  let cy := Int.ediv g.height 2
  let dx := pos.1 - cx
  let dy := pos.2 - cy
  if |dx| > |dy| then (if dx > 0 then .right else .left)
  else (if dy > 0 then .down else .up)

/-! ## DAG (`generator.py`, class `DAG`)

`self.edges` is an insertion-ordered dict `arrow_id -> set of blocker
ids`.  A Python set of ids is modelled as a duplicate-free list; set
iteration order is unspecified in Python, and every result proved about
these functions is iteration-order independent. -/

/-- The `DAG.edges` dict. -/
abbrev DAGT := List (String × List String)

/-- Dict lookup `self.edges.get(k)`. -/
def dagLookup (g : DAGT) (k : String) : Option (List String) :=
  (g.find? (fun p => p.1 = k)).map (·.2)

/-- `self.edges.get(node, [])`. -/
def dagSucc (g : DAGT) (k : String) : List String :=
  (dagLookup g k).getD []

/-- All ids mentioned in the dict (keys and blocker sets); used only for
the DFS fuel bound. -/
def dagNodes (g : DAGT) : Finset String :=
  g.foldr (fun p acc => insert p.1 (p.2.foldr insert acc)) ∅

/-- Total length of all stored blocker lists; used only for the DFS
fuel bound. -/
def dagTotalLen (g : DAGT) : ℕ := (g.map (fun p => p.2.length)).sum

/-- The explicit-stack DFS loop inside `DAG._has_path`: pop a node,
succeed if it is the target, skip it if already visited, otherwise mark
it visited and push all ids that block it.  Written with fuel so that it
reduces in the kernel; `none` means the fuel ran out, and
`DAG.has_path` passes fuel proven sufficient below. -/
def hasPathAux (g : DAGT) (to_id : String) :
    ℕ → Finset String → List String → Option Bool
  | 0, _, _ => none
  | _ + 1, _, [] => some false
  | fuel + 1, visited, node :: rest =>
    if node = to_id then some true
    else if node ∈ visited then hasPathAux g to_id fuel visited rest
    else hasPathAux g to_id fuel (insert node visited) (rest ++ dagSucc g node)

/-- The fuel `DAG.has_path` supplies to the DFS. -/
def hasPathFuel (g : DAGT) : ℕ :=
  ((dagNodes g).card + 1) * (dagTotalLen g + 1) + 2

/-- `DAG._has_path(from_id, to_id)`: DFS reachability over the blocker
edges (the code's initial `from_id == to_id` check is subsumed by the
first loop iteration). -/
def DAG.has_path (g : DAGT) (from_id to_id : String) : Bool :=
  (hasPathAux g to_id (hasPathFuel g) ∅ [from_id]).getD false

/-- `DAG.would_create_cycle(new_arrow_id, blocker_ids)`: true iff some
blocker reaches `new_arrow_id`. -/
def DAG.would_create_cycle (g : DAGT) (new_arrow_id : String)
    (blocker_ids : List String) : Bool :=
  blocker_ids.any (fun b => DAG.has_path g b new_arrow_id)

/-- `DAG.add_arrow(arrow_id, blockers)`: dict store
`self.edges[arrow_id] = blockers.copy()` (replace in place if the key
exists, else append). -/
def DAG.add_arrow (g : DAGT) (aid : String) (blockers : List String) : DAGT :=
  if g.any (fun p => p.1 = aid) then
    g.map (fun p => if p.1 = aid then (aid, blockers) else p)
  else g ++ [(aid, blockers)]

/-- One dict item of the inner `for arrow_id, blockers in
self.edges.items()` scan of `DAG.get_depth`: if the item's blocker set
contains `current`, raise its depth, decrement its in-degree and append
it to the queue when the in-degree reaches zero. -/
def getDepthScanStep (current : String) (current_depth : ℤ)
    (st : (String → ℤ) × (String → ℤ) × List String)
    (p : String × List String) :
    (String → ℤ) × (String → ℤ) × List String :=
  if current ∈ p.2 then
    let dep2 := Function.update st.2.1 p.1 (max (st.2.1 p.1) (current_depth + 1))
    let ind2 := Function.update st.1 p.1 (st.1 p.1 - 1)
    let app2 := if ind2 p.1 = 0 then st.2.2 ++ [p.1] else st.2.2
    (ind2, dep2, app2)
  else st

/-- The body of the `while queue` loop of `DAG.get_depth` for one popped
`current`: scan all dict items in order.  Returns the updated
(in-degree, depth, appended-queue-suffix). -/
def getDepthScan (g : DAGT) (current : String) (current_depth : ℤ)
    (in_deg : String → ℤ) (depth : String → ℤ) :
    (String → ℤ) × (String → ℤ) × List String :=
  g.foldl (getDepthScanStep current current_depth) (in_deg, depth, [])

/-- The `while queue` loop of `DAG.get_depth`, with explicit fuel; `none`
models non-termination within the supplied fuel (never reached: the fuel
passed by `DAG.get_depth` dominates the number of possible pops). -/
def getDepthLoop (g : DAGT) : ℕ → (String → ℤ) → (String → ℤ) → List String →
    Option (String → ℤ)
  | 0, _, _, _ => none
  | _ + 1, _, depth, [] => some depth
  | fuel + 1, in_deg, depth, current :: qrest =>
    let st := getDepthScan g current (depth current) in_deg depth
    getDepthLoop g fuel st.1 st.2.1 (qrest ++ st.2.2)

/-- `DAG.get_depth()`: Kahn-style pass as written in the source —
in-degrees count, per id, how many items list it as a blocker; the queue
starts with the ids of in-degree zero; popped nodes relax the items that
depend on them. -/
def DAG.get_depth (g : DAGT) : Option ℤ :=
  if g.isEmpty then some 0
  else
    let keys := g.map (·.1)
    let in_deg0 : String → ℤ := fun k => (g.countP (fun p => k ∈ p.2) : ℤ)
    let depth0 : String → ℤ := fun _ => 0
    let queue0 := keys.filter (fun k => in_deg0 k = 0)
    (getDepthLoop g (2 * g.length + 1) in_deg0 depth0 queue0).map
      (fun dep => (keys.map dep).foldl max 0)

/-! ## Arrow growth (`generator.py`, `grow_arrow_strict_direction`) -/

/-- The result dict of `grow_arrow_strict_direction`: cell list (head
first) and the head→neck direction. -/
structure GrownArrow where
  cells : List Cell
  direction : Dir
deriving DecidableEq, Repr

/-- The per-step candidate list of the tail-growth loop: among the
current direction and its two 90-degree rotations, the moves landing on
a valid free cell not already in the path. -/
def growCandidates (grid : Grid) (cells : List Cell) (current : Cell)
    (current_dir : Dir) : List (Cell × Dir) :=
  [current_dir, rotate_90_cw current_dir, rotate_90_ccw current_dir].filterMap
    (fun d =>
      let next_pos := move_in_direction current d
      if grid.is_valid_and_free next_pos ∧ next_pos ∉ cells then
        some (next_pos, d)
      else none)

/-- The tail-growth `while len(cells) < target_length` loop.  The fuel
equals the remaining iteration count (`target_length - 2` at entry), so
the loop condition and the fuel run out together; the condition is still
checked literally.  Yields the grown cell list and the RNG state, or
`none` if a draw inside `choice` raises. -/
def growTail (grid : Grid) (target_length : ℤ) :
    ℕ → List Cell → Cell → Dir → ℤ → Option (List Cell × ℤ)
  | 0, cells, _, _, s => some (cells, s)
  | fuel + 1, cells, current, current_dir, s =>
    if (cells.length : ℤ) < target_length then
      let candidates := growCandidates grid cells current current_dir
      if candidates.isEmpty then some (cells, s)
      else
        match candidates.find? (fun pd => pd.2 = current_dir) with
        | some pd =>
          let p := SeededRandom.next s
          if p.1 < lit08 then
            growTail grid target_length fuel (cells ++ [pd.1]) pd.1 pd.2 p.2
          else do
            let cs ← SeededRandom.choice candidates p.2
            match cs.1 with
            | some pd2 =>
                growTail grid target_length fuel (cells ++ [pd2.1]) pd2.1 pd2.2 cs.2
            | none => none
        | none => do
            let cs ← SeededRandom.choice candidates s
            match cs.1 with
            | some pd2 =>
                growTail grid target_length fuel (cells ++ [pd2.1]) pd2.1 pd2.2 cs.2
            | none => none
    else some (cells, s)

/-- `grow_arrow_strict_direction(start, direction, target_length, grid,
rng)`.  Inner `none` is the Python `None` return (head or neck invalid);
outer `none` is a raised error inside a draw. -/
def grow_arrow_strict_direction (start : Cell) (direction : Dir)
    (target_length : ℤ) (grid : Grid) (s : ℤ) :
    Option (Option GrownArrow × ℤ) :=
  if !(grid.is_valid_and_free start) then some (none, s)
  else
    let neck := move_in_direction start direction
    if !(grid.is_valid_and_free neck) then some (none, s)
    else do
      let r ← growTail grid target_length (target_length - 2).toNat
        [start, neck] neck direction s
      if r.1.length < 2 then some (none, r.2)
      else some (some ⟨r.1, direction⟩, r.2)

/-! ## Blocking detection (`generator.py`, `find_blocking_arrows`) -/

/-- The forward ray: cells one step beyond `head` in direction `d`,
walked while inside the `w × h` board (the `while 0 <= x < w and
0 <= y < h` loop; the walk stops at the first out-of-bounds cell). -/
def rayCells (head : Cell) (d : Dir) (w h : ℤ) : List Cell :=
  let v := DIRECTION_VECTORS d
  ((List.range (w.toNat + h.toNat + 2)).map
    (fun k => (head.1 + ((k : ℤ) + 1) * v.1, head.2 + ((k : ℤ) + 1) * v.2))).takeWhile
    (fun p => decide (0 ≤ p.1 ∧ p.1 < w ∧ 0 ≤ p.2 ∧ p.2 < h))

/-- `find_blocking_arrows(arrow, existing_arrows, grid)`: walk the ray
from the arrow's head; every occupied cell not belonging to the arrow
itself contributes its owner (`set.add`: inserted once).  (The
`existing_arrows` parameter is unused in the source body and omitted.) -/
def find_blocking_arrows (arrow : Arrow) (grid : Grid) : List String :=
  let head := arrow.cells.headD (0, 0)
  (rayCells head arrow.direction grid.width grid.height).foldl
    (fun blockers c =>
      match grid.cell_to_arrow c with
      | some bid =>
        if c ∉ arrow.cells then
          (if bid ∈ blockers then blockers else blockers ++ [bid])
        else blockers
      | none => blockers) []

/-! ## Onion layers and per-layer target length -/

/-- `get_onion_layers(width, height)`: cells grouped by Manhattan
distance from `(width // 2, height // 2)`, each layer listed in the
row-major scan order of the building loop. -/
def get_onion_layers (w h : ℤ) : List (List Cell) :=
  let cx := Int.ediv w 2
  let cy := Int.ediv h 2
  let max_distance := cx.natAbs + cy.natAbs
  let scan := (List.range h.toNat).flatMap (fun y =>
    (List.range w.toNat).map (fun x => ((x : ℤ), (y : ℤ))))
  (List.range (max_distance + 1)).map (fun d =>
    scan.filter (fun p => (p.1 - cx).natAbs + (p.2 - cy).natAbs = d))

/-- `calculate_target_length_for_layer(layer_idx, total_layers,
max_length)` with its float arithmetic (`layer_idx / (total_layers - 1)`
is correctly rounded int/int division, the product is a rounded
float*float-of-int multiplication, `int(...)` floors the nonnegative
result). -/
def calculate_target_length_for_layer (layer_idx total_layers : ℕ)
    (max_length : ℤ) : ℤ :=
  if total_layers ≤ 1 then max 2 (Int.ediv max_length 2)
  else
    let progress := roundDouble ((layer_idx : ℚ) / ((total_layers : ℚ) - 1))
    let len := max_length -
      ⌊roundDouble (progress * roundDouble ((max_length - 2 : ℤ) : ℚ))⌋
    max 2 len

/-! ## Main generation (`generator.py`, `generate_level_dag_first`) -/

/-- The mutable state of `generate_level_dag_first`: the grid, the
arrow list built so far, the DAG, the next numeric arrow id and the RNG
state. -/
structure GenState where
  grid : Grid
  arrows : List Arrow
  dag : DAGT
  arrow_id : ℕ
  rngs : ℤ

/-- Arrow ids `f"a{arrow_id}"`. -/
def mkArrowId (n : ℕ) : String := "a" ++ toString n

/-- Commit an accepted arrow: `dag.add_arrow`, append to the arrow list,
mark every cell occupied, bump the id counter. -/
def commitArrow (st : GenState) (arrow : Arrow) (blockers : List String)
    (s2 : ℤ) : GenState :=
  { grid := arrow.cells.foldl (fun g c => g.mark_occupied c arrow.id) st.grid,
    arrows := st.arrows ++ [arrow],
    dag := DAG.add_arrow st.dag arrow.id blockers,
    arrow_id := st.arrow_id + 1,
    rngs := s2 }

/-- The body of the per-layer `for start_pos in layer_cells` loop: skip
occupied cells, grow outward, find blockers, check for a cycle, commit
on success. -/
def processLayerCell (target_length : ℤ) (st : GenState) (start_pos : Cell) :
    Option GenState :=
  if st.grid.is_occupied start_pos then some st
  else
    let direction := get_outward_direction start_pos st.grid
    do
      let r ← grow_arrow_strict_direction start_pos direction target_length
        st.grid st.rngs
      match r.1 with
      | none => some { st with rngs := r.2 }
      | some ga =>
        let aid := mkArrowId st.arrow_id
        let arrow : Arrow := ⟨aid, ga.cells, ga.direction⟩
        let blockers := find_blocking_arrows arrow st.grid
        if DAG.would_create_cycle st.dag aid blockers then
          some { st with rngs := r.2 }
        else
          some (commitArrow { st with rngs := r.2 } arrow blockers r.2)

/-- One layer of the center-outward pass: compute the layer's target
length, shuffle its cells, process each cell. -/
def processLayer (max_length : ℤ) (total_layers : ℕ) (st : GenState)
    (idx_cells : ℕ × List Cell) : Option GenState :=
  let target_length :=
    calculate_target_length_for_layer idx_cells.1 total_layers max_length
  do
    let sh ← SeededRandom.shuffle idx_cells.2 st.rngs
    sh.1.foldlM (processLayerCell target_length) { st with rngs := sh.2 }

/-- The `for direction in rng.shuffle(DIRECTIONS)` loop of the final
sweep: try each direction with a length-2 grow; commit and stop at the
first grown arrow that passes the cycle check. -/
def sweepTryDirs (pos : Cell) : List Dir → GenState → Option GenState
  | [], st => some st
  | d :: rest, st => do
    let r ← grow_arrow_strict_direction pos d 2 st.grid st.rngs
    match r.1 with
    | none => sweepTryDirs pos rest { st with rngs := r.2 }
    | some ga =>
      let aid := mkArrowId st.arrow_id
      let arrow : Arrow := ⟨aid, ga.cells, ga.direction⟩
      let blockers := find_blocking_arrows arrow st.grid
      if !(DAG.would_create_cycle st.dag aid blockers) then
        some (commitArrow { st with rngs := r.2 } arrow blockers r.2)
      else
        sweepTryDirs pos rest { st with rngs := r.2 }

/-- One cell of the final sweep over all board cells. -/
def sweepCell (st : GenState) (pos : Cell) : Option GenState :=
  if st.grid.is_occupied pos then some st
  else do
    let sh ← SeededRandom.shuffle DIRECTIONS st.rngs
    sweepTryDirs pos sh.1 { st with rngs := sh.2 }

/-- The final sweep's `for y in range(height): for x in range(width)`
scan order. -/
def scanCells (w h : ℤ) : List Cell :=
  (List.range h.toNat).flatMap (fun y =>
    (List.range w.toNat).map (fun x => ((x : ℤ), (y : ℤ))))

/-- `generate_level_dag_first(width, height, max_length, rng)`: the
center-outward layer pass followed by the hole-filling sweep; returns
`(arrows, dag)` plus the final RNG state, or `none` if a draw raises. -/
def generate_level_dag_first (w h max_length : ℤ) (s : ℤ) :
    Option (List Arrow × DAGT × ℤ) :=
  let grid0 : Grid := ⟨w, h, ∅, fun _ => none⟩
  let layers := get_onion_layers w h
  do
    let st1 ← layers.enum.foldlM (processLayer max_length layers.length)
      ⟨grid0, [], [], 0, s⟩
    let st2 ← (scanCells w h).foldlM sweepCell st1
    some (st2.arrows, st2.dag, st2.rngs)

/-! ## Level parameters, colors and special types -/

/-- `ARROW_COLORS`. -/
def ARROW_COLORS : List String :=
  ["#FF6B6B", "#4ECDC4", "#45B7D1", "#96CEB4", "#FFEAA7",
   "#DDA0DD", "#F39C12", "#9B59B6", "#1ABC9C", "#E74C3C"]

/-- `get_grid_size(level)`. -/
def get_grid_size (level : ℤ) : ℤ × ℤ :=
  if level ≤ 5 then (4, 4)
  else if level ≤ 10 then (4, 4)
  else if level ≤ 20 then (5, 5)
  else if level ≤ 35 then (6, 6)
  else if level ≤ 50 then (7, 7)
  else if level ≤ 70 then (8, 8)
  else if level ≤ 100 then (10, 10)
  else if level ≤ 150 then (12, 12)
  else if level ≤ 200 then (14, 14)
  else if level ≤ 300 then (17, 17)
  else if level ≤ 500 then (22, 22)
  else if level ≤ 750 then (30, 30)
  else if level ≤ 1000 then (40, 40)
  else
    let extra := Int.ediv (level - 1000) 50
    let size := min 250 (40 + extra * 5)
    (size, size)

/-- `get_max_arrow_length(level)`. -/
def get_max_arrow_length (level : ℤ) : ℤ :=
  if level ≤ 10 then 4
  else if level ≤ 30 then 6
  else if level ≤ 50 then 12
  else if level ≤ 100 then 20
  else min 30 (20 + Int.ediv (level - 100) 50)

/-- `get_target_dag_depth(level)`. -/
def get_target_dag_depth (level : ℤ) : ℤ × ℤ :=
  if level ≤ 5 then (1, 2)
  else if level ≤ 15 then (2, 3)
  else if level ≤ 30 then (2, 4)
  else if level ≤ 50 then (3, 5)
  else if level ≤ 100 then (4, 6)
  else if level ≤ 200 then (5, 8)
  else if level ≤ 500 then (6, 10)
  else (8, 15)

/-- The five chances of `get_special_arrow_config(level)` (exact values
of the floats the Python expressions produce; absent assignments leave
the integer `0`). -/
structure SpecialConfig where
  ice : ℚ
  life : ℚ
  danger : ℚ
  bomb : ℚ
  electric : ℚ

/-- One chance expression `min(base + (level - lo) * step, cap)` with
its float arithmetic. -/
def chanceExpr (level lo : ℤ) (base step cap : ℚ) : ℚ :=
  min (roundDouble (base + roundDouble (roundDouble ((level - lo : ℤ) : ℚ) * step))) cap

/-- `get_special_arrow_config(level)`. -/
def get_special_arrow_config (level : ℤ) : SpecialConfig :=
  { ice := if level ≥ 25 then chanceExpr level 25 (litDec 5 2) (litDec 1 3) (litDec 2 1) else 0,
    life := if level ≥ 15 then chanceExpr level 15 (litDec 3 2) (litDec 1 3) (litDec 1 1) else 0,
    danger := if level ≥ 40 then chanceExpr level 40 (litDec 3 2) (litDec 1 3) (litDec 12 2) else 0,
    bomb := if level ≥ 60 then chanceExpr level 60 (litDec 2 2) (litDec 1 3) (litDec 8 2) else 0,
    electric := if level ≥ 90 then chanceExpr level 90 (litDec 1 2) (litDec 5 4) (litDec 6 2) else 0 }

/-- A fully decorated arrow of a generated level (id, cells, direction,
color, special type, optional frozen counter). -/
structure GenArrow where
  id : String
  cells : List Cell
  direction : Dir
  color : String
  type : String
  frozen : Option ℤ
deriving DecidableEq, Repr

/-- The validator-facing view of a generated arrow. -/
def GenArrow.core (a : GenArrow) : Arrow := ⟨a.id, a.cells, a.direction⟩

/-- `assign_special_types(arrows, level, rng)`: per arrow draw `r` once
and walk the cumulative buckets in the fixed order ice → life → danger →
bomb → electric → normal.  (`cumulative` starts at integer `0`; adding
the first chance is exact, later additions round.)  Returns the typed
arrows, the special count, and the RNG state. -/
def assignStep (config : SpecialConfig) (st : List GenArrow × ℕ × ℤ)
    (a : GenArrow) : List GenArrow × ℕ × ℤ :=
    let p := SeededRandom.next st.2.2
    let r := p.1
    let c1 := config.ice
    if r < c1 then (st.1 ++ [{ a with type := "ice", frozen := some 2 }], st.2.1 + 1, p.2)
    else
      let c2 := roundDouble (c1 + config.life)
      if r < c2 then (st.1 ++ [{ a with type := "life" }], st.2.1 + 1, p.2)
      else
        let c3 := roundDouble (c2 + config.danger)
        if r < c3 then (st.1 ++ [{ a with type := "danger" }], st.2.1 + 1, p.2)
        else
          let c4 := roundDouble (c3 + config.bomb)
          if r < c4 then (st.1 ++ [{ a with type := "bomb" }], st.2.1 + 1, p.2)
          else
            let c5 := roundDouble (c4 + config.electric)
            if r < c5 then (st.1 ++ [{ a with type := "electric" }], st.2.1 + 1, p.2)
            else (st.1 ++ [{ a with type := "normal" }], st.2.1, p.2)

def assign_special_types (arrows : List GenArrow) (level : ℤ) (s : ℤ) :
    List GenArrow × ℕ × ℤ :=
  arrows.foldl (assignStep (get_special_arrow_config level)) ([], 0, s)

/-! ## `generate_level` -/

/-- The `meta` dict of a generated level. -/
structure LevelMeta where
  difficulty : ℚ
  arrow_count : ℕ
  special_arrow_count : ℕ
  dag_depth : ℤ
  target_depth : String
deriving DecidableEq, Repr

/-- A generated level. -/
structure Level where
  level : ℤ
  seed : ℤ
  width : ℤ
  height : ℤ
  arrows : List GenArrow
  meta : LevelMeta
deriving DecidableEq, Repr

/-- `generate_level(level, seed=None)`: parameters from the level index,
DAG-first generation, round-robin colors, seeded special types, DAG
depth, difficulty score (float arithmetic, `round(…, 2)`).  `none`
models a raised error inside a draw. -/
def generate_level (level : ℤ) (seed : Option ℤ) : Option Level :=
  let sd := seed.getD level
  let wh := get_grid_size level
  let max_length := get_max_arrow_length level
  let td := get_target_dag_depth level
  do
    let g ← generate_level_dag_first wh.1 wh.2 max_length sd
    let colored := g.1.enum.map (fun ia =>
      ({ id := ia.2.id, cells := ia.2.cells, direction := ia.2.direction,
         color := ARROW_COLORS.getD (ia.1 % ARROW_COLORS.length) "",
         type := "", frozen := none } : GenArrow))
    let typed := assign_special_types colored level g.2.2
    let actual_depth ← DAG.get_depth g.2.1
    let difficulty := pyRound2 (roundDouble (roundDouble
      (roundDouble (roundDouble ((g.1.length : ℤ) : ℚ) * litDec 3 1) +
       roundDouble (roundDouble ((actual_depth : ℤ) : ℚ) * litDec 4 1)) +
      roundDouble (roundDouble ((typed.2.1 : ℤ) : ℚ) * litDec 3 1)))
    some { level := level, seed := sd, width := wh.1, height := wh.2,
           arrows := typed.1,
           meta := { difficulty := difficulty,
                     arrow_count := g.1.length,
                     special_arrow_count := typed.2.1,
                     dag_depth := actual_depth,
                     target_depth := toString td.1 ++ "-" ++ toString td.2 } }

/-! ## Solution helpers (`generator.py`, `build_cell_map` …
`get_full_solution`) -/

/-- `build_cell_map(arrows)`: cell → arrow id; later writes win, exactly
as successive dict stores do. -/
def build_cell_map (arrows : List Arrow) : Cell → Option String :=
  arrows.foldl (fun m a =>
    a.cells.foldl (fun m2 c => Function.update m2 c (some a.id)) m)
    (fun _ => none)

/-- `get_arrow_head(arrow)` (`cells[0]`; the source raises on an empty
cell list — every theorem below that depends on the head assumes
nonempty cells). -/
def get_arrow_head (a : Arrow) : Cell := a.cells.headD (0, 0)

/-- `get_path_cells(head, direction, w, h)` (returned as the walked
list; the source collects the same cells into a set and only ever tests
membership over it). -/
def get_path_cells (head : Cell) (d : Dir) (w h : ℤ) : List Cell :=
  rayCells head d w h

/-- `get_free_arrows(arrows, grid_width, grid_height)`: an arrow is free
iff no path cell is owned by a different id in the cell map of the
passed (remaining) arrows. -/
def get_free_arrows (arrows : List Arrow) (w h : ℤ) : List Arrow :=
  let cell_map := build_cell_map arrows
  arrows.filter (fun a =>
    !((get_path_cells (get_arrow_head a) a.direction w h).any (fun c =>
      match cell_map c with
      | some o => o ≠ a.id
      | none => false)))

/-- `get_hint(arrows, w, h)`: the id of the first free arrow. -/
def get_hint (arrows : List Arrow) (w h : ℤ) : Option String :=
  ((get_free_arrows arrows w h).head?).map (·.id)

/-- The `while remaining and iterations < max_iterations` loop of
`get_full_solution`; the fuel is the iteration budget. -/
def fullSolutionAux (w h : ℤ) : ℕ → List Arrow → List String
  | 0, _ => []
  | fuel + 1, remaining =>
    if remaining.isEmpty then []
    else
      match get_free_arrows remaining w h with
      | [] => []
      | f :: _ =>
        f.id :: fullSolutionAux w h fuel (remaining.filter (fun a => a.id ≠ f.id))

/-- `get_full_solution(arrows, grid_width, grid_height)`: repeatedly
remove the first free arrow, up to `2 * len(arrows)` iterations. -/
def get_full_solution (arrows : List Arrow) (w h : ℤ) : List String :=
  fullSolutionAux w h (2 * arrows.length) arrows

/-! ## Fast move validation (`game.py`, `_build_dependency_graph` and
`validate_moves_fast`) -/

/-- The failure reasons of `validate_moves_fast`, one constructor per
format string in the source; the `step` fields carry the 1-based
`step + 1` the messages interpolate. -/
inductive VReason where
  | expectedMoves (expected got : ℕ)
  | idsMismatch
  | alreadyRemoved (step : ℕ) (id : String)
  | unknownArrow (step : ℕ) (id : String)
  | blocked (step : ℕ) (id : String)
  | notAllRemoved
deriving DecidableEq, Repr

/-- The step index carried by a failure reason, when its message has
one. -/
def VReason.stepIndex : VReason → Option ℕ
  | .alreadyRemoved k _ => some k
  | .unknownArrow k _ => some k
  | .blocked k _ => some k
  | _ => none

/-- `_build_dependency_graph(arrows, grid_width, grid_height)`: one pass
building `cell_map` and `arrow_cells` (later same-id arrows overwrite),
then per arrow the ray-walk blocker set, then the reverse index.
Modelled as total functions (the dicts default to empty where the code
uses `.get(…, set())`/`setdefault`). -/
def build_dependency_graph (arrows : List Arrow) (w h : ℤ) :
    (String → Finset String) × (String → Finset String) :=
  let cell_map := build_cell_map arrows
  let arrow_cells : String → List Cell :=
    arrows.foldl (fun f a => Function.update f a.id a.cells) (fun _ => [])
  let blockers_of : String → Finset String :=
    arrows.foldl (fun f a =>
      let own := arrow_cells a.id
      let head := a.cells.headD (0, 0)
      let bs := (rayCells head a.direction w h).foldl (fun acc c =>
        match cell_map c with
        | some other => if other ≠ a.id ∧ c ∉ own then insert other acc else acc
        | none => acc) ∅
      Function.update f a.id bs) (fun _ => ∅)
  let aids := (arrows.map (·.id)).toFinset
  (blockers_of, fun b => aids.filter (fun a => b ∈ blockers_of a))

/-- The `for step, move_id in enumerate(moves)` loop of
`validate_moves_fast`, with the trailing `len(removed) != len(all_ids)`
check. -/
def vloop (all_ids : Finset String) (dependents_of : String → Finset String) :
    List String → ℕ → Finset String → (String → ℕ) → Bool × Option VReason
  | [], _, removed, _ =>
    if removed.card ≠ all_ids.card then (false, some .notAllRemoved)
    else (true, none)
  | mid :: rest, step, removed, counts =>
    if mid ∈ removed then (false, some (.alreadyRemoved (step + 1) mid))
    else if mid ∉ all_ids then (false, some (.unknownArrow (step + 1) mid))
    else if 0 < counts mid then (false, some (.blocked (step + 1) mid))
    else
      let removed2 := insert mid removed
      let counts2 : String → ℕ := fun a =>
        if a ∈ dependents_of mid ∧ a ∉ removed2 then counts a - 1 else counts a
      vloop all_ids dependents_of rest (step + 1) removed2 counts2

/-- `validate_moves_fast(arrows, moves, grid_width, grid_height)`:
up-front length and id-set checks, then the counter-decrementing walk.
(`max(0, · - 1)` is ℕ subtraction; the per-`dep_id` updates of one step
touch distinct keys, so the set-iteration order is irrelevant and the
update is modelled pointwise.) -/
def validate_moves_fast (arrows : List Arrow) (moves : List String)
    (w h : ℤ) : Bool × Option VReason :=
  let all_ids := (arrows.map (·.id)).toFinset
  if moves.length ≠ all_ids.card then
    (false, some (.expectedMoves all_ids.card moves.length))
  else if moves.toFinset ≠ all_ids then (false, some .idsMismatch)
  else
    let bd := build_dependency_graph arrows w h
    let counts0 : String → ℕ := fun aid => ((bd.1 aid) ∩ all_ids).card
    vloop all_ids bd.2 moves 0 ∅ counts0

/-! ## Specification-side notions used by the verified properties -/

/-- One blocker edge of a stored DAG: `b` blocks `a`. -/
def dagStep (g : DAGT) (a b : String) : Prop :=
  ∃ bs, dagLookup g a = some bs ∧ b ∈ bs

/-- Reachability over the stored blocker edges. -/
def Reach (g : DAGT) : String → String → Prop :=
  Relation.ReflTransGen (dagStep g)

/-- The geometric blocking relation of the specification: arrow `b`
blocks arrow `a` when some cell of `b` lies on `a`'s forward ray. -/
def blocksSpec (w h : ℤ) (b a : Arrow) : Prop :=
  ∃ c ∈ b.cells, c ∈ rayCells (get_arrow_head a) a.direction w h

instance (w h : ℤ) (b a : Arrow) : Decidable (blocksSpec w h b a) := by
  unfold blocksSpec; infer_instance

/-- The stepwise legality property of the specification for a move list:
at every step, the moved arrow has zero still-present blockers — no
arrow that is a different arrow and has not been removed by an earlier
move occupies a cell on the moved arrow's forward ray. -/
def stepOkSpec (arrows : List Arrow) (w h : ℤ) (moves : List String) : Prop :=
  ∀ i < moves.length, ∀ a ∈ arrows, moves.get? i = some a.id →
    ∀ b ∈ arrows, b.id ≠ a.id → b.id ∉ moves.take i → ¬ blocksSpec w h b a

instance (arrows : List Arrow) (w h : ℤ) (moves : List String) :
    Decidable (stepOkSpec arrows w h moves) := by
  unfold stepOkSpec; infer_instance

/-- The arrow list of the level produced by `generate_level(11, 428)`
(5×5 board), extracted for the solvability refutation: its arrows
`a0`, `a4`, `a5` block each other in a geometric cycle. -/
def lvl11arrows : List Arrow :=
  [⟨"a0", [(2, 2), (2, 1), (3, 1), (3, 2), (4, 2), (4, 3)], .up⟩,
   ⟨"a1", [(1, 2), (0, 2), (0, 1), (0, 0), (1, 0)], .left⟩,
   ⟨"a2", [(2, 3), (2, 4), (1, 4), (0, 4), (0, 3)], .down⟩,
   ⟨"a3", [(3, 3), (3, 4), (4, 4)], .down⟩,
   ⟨"a4", [(2, 0), (3, 0)], .right⟩,
   ⟨"a5", [(4, 0), (4, 1)], .down⟩]

/-- The arrow list of the level produced by `generate_level(1, 2)`
(4×4 board), extracted for the coverage refutation: its arrows cover
only 14 of the 16 cells, leaving `(1, 1)` and `(2, 3)` uncovered. -/
def lvl1arrows : List Arrow :=
  [⟨"a0", [(2, 2), (2, 1), (2, 0), (1, 0)], .up⟩,
   ⟨"a1", [(1, 2), (0, 2), (0, 3), (1, 3)], .left⟩,
   ⟨"a2", [(3, 1), (3, 0)], .up⟩,
   ⟨"a3", [(0, 0), (0, 1)], .down⟩,
   ⟨"a4", [(3, 2), (3, 3)], .down⟩]

/-- Wellformedness of the cell lists of a level's arrows: within each
arrow no repeated cell, every cell inside the `w × h` board, and no
cell shared between two arrows. -/
def cellListsWellformed (w h : ℤ) (cls : List (List Cell)) : Prop :=
  (∀ cs ∈ cls, cs.Nodup ∧
    ∀ c ∈ cs, 0 ≤ c.1 ∧ c.1 < w ∧ 0 ≤ c.2 ∧ c.2 < h) ∧
  List.Pairwise (fun cs1 cs2 => ∀ c ∈ cs1, c ∉ cs2) cls

/-- The generation-loop invariant: the grid keeps the requested size,
the arrows placed so far are wellformed, and each of their cells is
marked occupied. -/
def genInv (w h : ℤ) (st : GenState) : Prop :=
  st.grid.width = w ∧ st.grid.height = h ∧
  cellListsWellformed w h (st.arrows.map (fun a => a.cells)) ∧
  ∀ a ∈ st.arrows, ∀ c ∈ a.cells, c ∈ st.grid.occupied

/-! # Verified properties -/

/-! ## The `DAG.get_depth` computation (claim C6)

`get_depth` initialises `in_degree[x]` with the number of items whose
blocker set contains `x` (the number of arrows depending on `x`), seeds
the queue with the ids of in-degree zero, and then — for each popped
`current` — relaxes exactly the items whose blocker sets contain
`current`.  A queued id has in-degree zero, so by construction no item's
blocker set contains it: the relaxation loop never matches, no depth is
ever raised, no in-degree is ever decremented, and no id is ever
enqueued beyond the seeds.  Hence `get_depth` returns 0 on every graph,
instead of the longest dependency chain. -/

theorem foldl_fixed_of_fixed {α β : Type} (f : β → α → β) (l : List α) :
    (∀ a ∈ l, ∀ s, f s a = s) → ∀ st : β, l.foldl f st = st := by
  induction l with
  | nil => intro _ st; rfl
  | cons a t ih =>
    intro h st
    rw [List.foldl_cons, h a (List.mem_cons_self a t) st]
    exact ih (fun b hb s => h b (List.mem_cons_of_mem a hb) s) st

theorem getDepthScan_of_unmatched (g : DAGT) (current : String) (cd : ℤ)
    (ind dep : String → ℤ) (h : ∀ p ∈ g, current ∉ p.2) :
    getDepthScan g current cd ind dep = (ind, dep, []) := by
  unfold getDepthScan
  apply foldl_fixed_of_fixed
  intro p hp s
  unfold getDepthScanStep
  rw [if_neg (h p hp)]

theorem getDepthLoop_of_unmatched (g : DAGT) :
    ∀ (fuel : ℕ) (queue : List String) (ind dep : String → ℤ),
    (∀ k ∈ queue, ∀ p ∈ g, k ∉ p.2) → queue.length < fuel →
    getDepthLoop g fuel ind dep queue = some dep := by
  intro fuel
  induction fuel with
  | zero => intro queue _ _ _ hlen; omega
  | succ n ih =>
    intro queue ind dep hq hlen
    match queue with
    | [] => rfl
    | current :: rest =>
      have hscan := getDepthScan_of_unmatched g current (dep current) ind dep
        (hq current (List.mem_cons_self _ _))
      show getDepthLoop g n _ _ _ = some dep
      rw [hscan]
      simp only [List.append_nil]
      exact ih rest ind dep
        (fun k hk => hq k (List.mem_cons_of_mem _ hk))
        (by simpa using Nat.lt_of_succ_lt_succ hlen)

theorem foldl_max_zero (l : List String) (dep : String → ℤ)
    (h : ∀ k ∈ l, dep k = 0) : (l.map dep).foldl max 0 = 0 := by
  induction l with
  | nil => rfl
  | cons a t ih =>
    rw [List.map_cons, List.foldl_cons, h a (List.mem_cons_self _ _)]
    exact ih (fun k hk => h k (List.mem_cons_of_mem a hk))

/-- `DAG.get_depth` returns 0 on every stored graph. -/
theorem get_depth_eq_zero (g : DAGT) : DAG.get_depth g = some 0 := by
  unfold DAG.get_depth
  by_cases hg : g.isEmpty
  · rw [if_pos hg]
  · rw [if_neg hg]
    have hmem : ∀ k ∈ (g.map (·.1)).filter
        (fun k => (g.countP (fun p => k ∈ p.2) : ℤ) = 0),
        ∀ p ∈ g, k ∉ p.2 := by
      intro k hk p hp hkp
      have hz := (List.mem_filter.mp hk).2
      have : g.countP (fun p => k ∈ p.2) = 0 := by
        have := of_decide_eq_true hz
        exact_mod_cast this
      rw [List.countP_eq_zero] at this
      exact absurd (by simpa using hkp) (by simpa using this p hp)
    have hlen : ((g.map (·.1)).filter
        (fun k => (g.countP (fun p => k ∈ p.2) : ℤ) = 0)).length < 2 * g.length + 1 := by
      calc ((g.map (·.1)).filter _).length ≤ (g.map (·.1)).length :=
            List.length_filter_le _ _
        _ = g.length := List.length_map _ _
        _ < 2 * g.length + 1 := by omega
    dsimp only
    rw [getDepthLoop_of_unmatched g _ _ _ _ hmem hlen]
    exact congrArg some (foldl_max_zero _ _ (fun _ _ => rfl))

/-- C6 (code bug): the claim states that `DAG.get_depth()` returns the
length of the longest dependency chain of the committed graph.  In fact
the Kahn pass of the source seeds its queue with the ids that no blocker
set contains, and those are exactly the ids its relaxation loop looks
for inside blocker sets — so the loop body never fires and `get_depth`
returns 0 for every graph.  In particular, on the dict
`{"a0": {"a1"}, "a1": set()}` — whose longest dependency chain
`a0 → a1` has length 1 (witnessed here by the `dagStep` edge) — the
source returns 0. -/
theorem get_depth_ignores_chains :
    (∀ g : DAGT, DAG.get_depth g = some 0) ∧
    dagStep [("a0", ["a1"]), ("a1", [])] "a0" "a1" ∧
    DAG.get_depth [("a0", ["a1"]), ("a1", [])] = some 0 := by
  refine ⟨get_depth_eq_zero, ⟨["a1"], rfl, by simp⟩, get_depth_eq_zero _⟩

/-! ## Determinism of generation (claim C5)

The whole generator is embedded as a pure function of the level index
and the seed: the PRNG state is an integer threaded explicitly, all
'mutation' is explicit state passing, and no step consults anything
except its arguments — which is exactly how the source behaves (its only
stochastic ingredient is `SeededRandom`, seeded once from the
arguments; no `random`, time, or shared mutable module state is
consulted).  Determinism of two calls with equal arguments is therefore
the statement that equal inputs give equal `Level` structures — ids,
cell orders, directions, colors, types, frozen counters and metadata
alike (`Level` equality is structural equality of all of these). -/

/-- C5 (confirmed): two runs of `generate_level` on the same level index
and seed return identical levels — identical arrow lists (ids, cells in
order, directions, colors, types, frozen counters) and identical
metadata. -/
theorem generate_level_deterministic (level : ℤ) (seed : Option ℤ) :
    generate_level level seed = generate_level level seed := rfl

/-! ## The PRNG range contract (claim C8)

Facts about rounding to nearest with ties to even, leading to the range
bounds of `SeededRandom.next` and `SeededRandom.next_int`. -/

theorem rhe_ge_floor (q : ℚ) : ⌊q⌋ ≤ rhe q := by
  unfold rhe
  dsimp only
  split_ifs <;> omega

theorem rhe_le_floor_add_one (q : ℚ) : rhe q ≤ ⌊q⌋ + 1 := by
  unfold rhe
  dsimp only
  split_ifs <;> omega

theorem rhe_le (q : ℚ) : (rhe q : ℚ) ≤ q + 1/2 := by
  have hfl : ((⌊q⌋ : ℤ) : ℚ) ≤ q := Int.floor_le q
  unfold rhe
  dsimp only
  split_ifs with h1 h2 h3
  · linarith
  · push_cast
    linarith
  · linarith
  · have heq : q - (⌊q⌋ : ℚ) = 1/2 := le_antisymm (not_lt.mp h2) (not_lt.mp h1)
    push_cast
    linarith

theorem rhe_ge (q : ℚ) : q - 1/2 ≤ (rhe q : ℚ) := by
  have hfl : q < (⌊q⌋ : ℚ) + 1 := Int.lt_floor_add_one q
  unfold rhe
  dsimp only
  split_ifs with h1 h2 h3
  · linarith
  · push_cast
    linarith
  · linarith
  · push_cast
    linarith

theorem rhe_nonneg (q : ℚ) (h : 0 ≤ q) : 0 ≤ rhe q := by
  have : 0 ≤ ⌊q⌋ := Int.floor_nonneg.mpr h
  have := rhe_ge_floor q
  omega

theorem rhe_intCast (n : ℤ) : rhe (n : ℚ) = n := by
  unfold rhe
  dsimp only
  rw [Int.floor_intCast]
  rw [if_pos]
  rw [sub_self]
  norm_num

theorem rhe_mono {x y : ℚ} (h : x ≤ y) : rhe x ≤ rhe y := by
  rcases lt_or_eq_of_le (Int.floor_le_floor h) with hf | hf
  · calc rhe x ≤ ⌊x⌋ + 1 := rhe_le_floor_add_one x
      _ ≤ ⌊y⌋ := by omega
      _ ≤ rhe y := rhe_ge_floor y
  · have hxf : ((⌊x⌋ : ℤ) : ℚ) = ((⌊y⌋ : ℤ) : ℚ) := by rw [hf]
    have hr : x - (⌊x⌋ : ℚ) ≤ y - (⌊y⌋ : ℚ) := by rw [hxf]; linarith
    unfold rhe
    dsimp only
    split_ifs <;>
      first
        | omega
        | (exfalso; linarith)
        | (simp only [Int.even_iff] at *; omega)

theorem rhe_le_of_lt_int {x : ℚ} {n : ℤ} (hx : x < n) : rhe x ≤ n := by
  have h1 : ⌊x⌋ + 1 ≤ n := by
    have := Int.floor_le_floor (le_of_lt hx)
    rw [Int.floor_intCast] at this
    rcases eq_or_lt_of_le this with he | hl
    · exfalso
      have := Int.floor_le x
      rw [he] at this
      exact absurd hx (not_lt.mpr this)
    · omega
  have := rhe_le_floor_add_one x
  omega

theorem natLog2F_spec :
    ∀ (fuel n : ℕ), 1 ≤ n → n ≤ fuel →
      2 ^ natLog2F fuel n ≤ n ∧ n < 2 ^ (natLog2F fuel n + 1) := by
  intro fuel
  induction fuel with
  | zero => intro n h1 h2; omega
  | succ f ih =>
    intro n h1 h2
    show 2 ^ (if 2 ≤ n then natLog2F f (n / 2) + 1 else 0) ≤ n ∧
      n < 2 ^ ((if 2 ≤ n then natLog2F f (n / 2) + 1 else 0) + 1)
    by_cases h : 2 ≤ n
    · rw [if_pos h]
      have hd1 : 1 ≤ n / 2 := by omega
      have hd2 : n / 2 ≤ f := by omega
      obtain ⟨hl, hu⟩ := ih (n / 2) hd1 hd2
      constructor
      · calc 2 ^ (natLog2F f (n / 2) + 1) = 2 * 2 ^ natLog2F f (n / 2) := by ring
          _ ≤ 2 * (n / 2) := by omega
          _ ≤ n := by omega
      · calc n < 2 * (n / 2) + 2 := by omega
          _ ≤ 2 * 2 ^ (natLog2F f (n / 2) + 1) := by omega
          _ = 2 ^ (natLog2F f (n / 2) + 1 + 1) := by ring
    · rw [if_neg h]
      omega

theorem natLog2_spec (n : ℕ) (h : 1 ≤ n) :
    2 ^ natLog2 n ≤ n ∧ n < 2 ^ (natLog2 n + 1) :=
  natLog2F_spec n n h le_rfl

theorem zpow_lt_zpow_right_of_lt {a b : ℤ} (h : a < b) :
    (2 : ℚ) ^ a < 2 ^ b :=
  zpow_lt_zpow_right₀ (by norm_num) h

theorem le_zpow_iff_zpow_le {a b : ℤ} : a ≤ b ↔ (2 : ℚ) ^ a ≤ 2 ^ b :=
  (zpow_le_zpow_iff_right₀ (by norm_num)).symm

/-- The two-sided bracket computed by `floorLog2Q`. -/
theorem floorLog2Q_spec (q : ℚ) (hq : 0 < q) :
    (2 : ℚ) ^ floorLog2Q q ≤ q ∧ q < 2 ^ (floorLog2Q q + 1) := by
  have hnum : (1 : ℤ) ≤ q.num := by
    have := Rat.num_pos.mpr hq
    omega
  have hden : (1 : ℕ) ≤ q.den := q.pos
  obtain ⟨ha1, ha2⟩ := natLog2_spec q.num.toNat (by omega)
  obtain ⟨hb1, hb2⟩ := natLog2_spec q.den hden
  set a : ℕ := natLog2 q.num.toNat with hadef
  set b : ℕ := natLog2 q.den with hbdef
  have htn : (q.num.toNat : ℤ) = q.num := Int.toNat_of_nonneg (by omega)
  have hqd : (0 : ℚ) < (q.den : ℚ) := by exact_mod_cast hden
  have hq_eq : q = (q.num : ℚ) / (q.den : ℚ) := (Rat.num_div_den q).symm
  have hpa : (2 : ℚ) ^ (a : ℤ) ≤ (q.num : ℚ) := by
    rw [← htn]
    push_cast
    exact_mod_cast ha1
  have hpa2 : (q.num : ℚ) < 2 ^ ((a : ℤ) + 1) := by
    rw [← htn]
    push_cast
    exact_mod_cast ha2
  have hpb : (2 : ℚ) ^ (b : ℤ) ≤ (q.den : ℚ) := by
    push_cast
    exact_mod_cast hb1
  have hpb2 : ((q.den : ℕ) : ℚ) < 2 ^ ((b : ℤ) + 1) := by
    push_cast
    exact_mod_cast hb2
  -- strict sandwich 2^(a-b-1) < q < 2^(a-b+1)
  have key_lo : (2 : ℚ) ^ ((a : ℤ) - b - 1) < q := by
    rw [hq_eq, lt_div_iff hqd]
    calc 2 ^ ((a : ℤ) - b - 1) * (q.den : ℚ)
        < 2 ^ ((a : ℤ) - b - 1) * 2 ^ ((b : ℤ) + 1) := by
          exact mul_lt_mul_of_pos_left hpb2 (zpow_pos (by norm_num) _)
      _ = 2 ^ (a : ℤ) := by
          rw [← zpow_add₀ (by norm_num : (2:ℚ) ≠ 0)]
          ring_nf
      _ ≤ (q.num : ℚ) := hpa
  have key_hi : q < (2 : ℚ) ^ ((a : ℤ) - b + 1) := by
    rw [hq_eq, div_lt_iff hqd]
    calc (q.num : ℚ) < 2 ^ ((a : ℤ) + 1) := hpa2
      _ = 2 ^ ((a : ℤ) - b + 1) * 2 ^ (b : ℤ) := by
          rw [← zpow_add₀ (by norm_num : (2:ℚ) ≠ 0)]
          ring_nf
      _ ≤ 2 ^ ((a : ℤ) - b + 1) * (q.den : ℚ) := by
          exact mul_le_mul_of_nonneg_left hpb (by positivity)
  -- now unfold the correction logic
  unfold floorLog2Q
  rw [← hadef, ← hbdef]
  dsimp only
  split_ifs with h1 h2
  · exact absurd h1 (not_le.mpr key_hi)
  · refine ⟨le_of_lt key_lo, ?_⟩
    have he : (a : ℤ) - b - 1 + 1 = (a : ℤ) - b := by ring
    rw [he]
    exact h2
  · exact ⟨not_lt.mp h2, key_hi⟩

theorem roundDouble_nonneg (q : ℚ) : 0 ≤ roundDouble q := by
  unfold roundDouble
  split_ifs with h
  · have hx : (0 : ℚ) ≤ q * 2 ^ ((52 : ℤ) - floorLog2Q q) := by positivity
    have := rhe_nonneg _ hx
    positivity
  · exact le_refl 0

/-- Upper bound: `roundDouble q ≤ 2 ^ (⌊log₂ q⌋ + 1)` for positive `q`. -/
theorem roundDouble_le_zpow (q : ℚ) (h : 0 < q) :
    roundDouble q ≤ 2 ^ (floorLog2Q q + 1) := by
  unfold roundDouble
  rw [if_pos h]
  obtain ⟨hlo, hhi⟩ := floorLog2Q_spec q h
  set e := floorLog2Q q with he
  have hx : q * 2 ^ ((52 : ℤ) - e) < 2 ^ ((53 : ℤ) + 0) := by
    calc q * 2 ^ ((52 : ℤ) - e) < 2 ^ (e + 1) * 2 ^ ((52 : ℤ) - e) := by
          exact mul_lt_mul_of_pos_right hhi (zpow_pos (by norm_num) _)
      _ = 2 ^ ((53 : ℤ) + 0) := by
          rw [← zpow_add₀ (by norm_num : (2:ℚ) ≠ 0)]
          ring_nf
  have hmle : rhe (q * 2 ^ ((52 : ℤ) - e)) ≤ 2 ^ (53 : ℕ) := by
    have := rhe_le_of_lt_int (n := 2 ^ (53 : ℕ)) (by
      calc q * 2 ^ ((52 : ℤ) - e) < 2 ^ ((53 : ℤ) + 0) := hx
        _ = ((2 ^ (53 : ℕ) : ℤ) : ℚ) := by norm_num)
    exact this
  calc (rhe (q * 2 ^ ((52 : ℤ) - e)) : ℚ) * 2 ^ (e - (52 : ℤ))
      ≤ ((2 ^ (53 : ℕ) : ℤ) : ℚ) * 2 ^ (e - (52 : ℤ)) := by
        apply mul_le_mul_of_nonneg_right (by exact_mod_cast hmle) (by positivity)
    _ = 2 ^ ((53 : ℤ)) * 2 ^ (e - (52 : ℤ)) := by
        norm_num
    _ = 2 ^ (e + 1) := by
        rw [← zpow_add₀ (by norm_num : (2:ℚ) ≠ 0)]
        rw [show ((53 : ℤ) + (e - 52)) = e + 1 by ring]

/-- Lower bound: `2 ^ ⌊log₂ q⌋ ≤ roundDouble q` for positive `q`. -/
theorem zpow_le_roundDouble (q : ℚ) (h : 0 < q) :
    2 ^ floorLog2Q q ≤ roundDouble q := by
  unfold roundDouble
  rw [if_pos h]
  obtain ⟨hlo, hhi⟩ := floorLog2Q_spec q h
  set e := floorLog2Q q with he
  have hx : ((2 ^ (52 : ℕ) : ℤ) : ℚ) ≤ q * 2 ^ ((52 : ℤ) - e) := by
    calc ((2 ^ (52 : ℕ) : ℤ) : ℚ) = 2 ^ (e + ((52 : ℤ) - e)) := by
          push_cast
          rw [show (e + ((52 : ℤ) - e)) = (52 : ℤ) by ring]
          norm_num
      _ = 2 ^ e * 2 ^ ((52 : ℤ) - e) := by
          rw [← zpow_add₀ (by norm_num : (2:ℚ) ≠ 0)]
      _ ≤ q * 2 ^ ((52 : ℤ) - e) := by
          exact mul_le_mul_of_nonneg_right hlo (by positivity)
  have hmge : (2 ^ (52 : ℕ) : ℤ) ≤ rhe (q * 2 ^ ((52 : ℤ) - e)) := by
    have h1 : ((2 ^ (52 : ℕ) : ℤ) : ℚ) ≤ (⌊q * 2 ^ ((52 : ℤ) - e)⌋ : ℚ) := by
      have := Int.le_floor.mpr hx
      exact_mod_cast this
    have h2 : (2 ^ (52 : ℕ) : ℤ) ≤ ⌊q * 2 ^ ((52 : ℤ) - e)⌋ := by exact_mod_cast h1
    have := rhe_ge_floor (q * 2 ^ ((52 : ℤ) - e))
    omega
  calc (2 : ℚ) ^ e = 2 ^ ((52 : ℤ)) * 2 ^ (e - (52 : ℤ)) := by
        rw [← zpow_add₀ (by norm_num : (2:ℚ) ≠ 0)]
        rw [show ((52 : ℤ) + (e - 52)) = e by ring]
    _ = ((2 ^ (52 : ℕ) : ℤ) : ℚ) * 2 ^ (e - (52 : ℤ)) := by
        norm_num
    _ ≤ (rhe (q * 2 ^ ((52 : ℤ) - e)) : ℚ) * 2 ^ (e - (52 : ℤ)) := by
        apply mul_le_mul_of_nonneg_right (by exact_mod_cast hmge) (by positivity)

/-- `roundDouble` is monotone. -/
theorem roundDouble_mono {q q2 : ℚ} (h : q ≤ q2) :
    roundDouble q ≤ roundDouble q2 := by
  by_cases hq : 0 < q
  · have hq2 : 0 < q2 := lt_of_lt_of_le hq h
    obtain ⟨hlo, hhi⟩ := floorLog2Q_spec q hq
    obtain ⟨hlo2, hhi2⟩ := floorLog2Q_spec q2 hq2
    have hee : floorLog2Q q ≤ floorLog2Q q2 := by
      by_contra hcon
      push_neg at hcon
      have : (2:ℚ) ^ (floorLog2Q q2 + 1) ≤ 2 ^ floorLog2Q q :=
        le_zpow_iff_zpow_le.mp (by omega)
      linarith
    rcases eq_or_lt_of_le hee with heq | hlt
    · -- same binade: monotone mantissa rounding
      unfold roundDouble
      rw [if_pos hq, if_pos hq2, ← heq]
      have hxle : q * 2 ^ ((52 : ℤ) - floorLog2Q q) ≤
          q2 * 2 ^ ((52 : ℤ) - floorLog2Q q) := by
        exact mul_le_mul_of_nonneg_right h (by positivity)
      exact mul_le_mul_of_nonneg_right (by exact_mod_cast rhe_mono hxle)
        (by positivity)
    · calc roundDouble q ≤ 2 ^ (floorLog2Q q + 1) := roundDouble_le_zpow q hq
        _ ≤ 2 ^ floorLog2Q q2 := le_zpow_iff_zpow_le.mp (by omega)
        _ ≤ roundDouble q2 := zpow_le_roundDouble q2 hq2
  · unfold roundDouble
    rw [if_neg hq]
    exact roundDouble_nonneg q2

/-- `roundDouble` fixes 1. -/
theorem roundDouble_one : roundDouble 1 = 1 := by
  have he : floorLog2Q 1 = 0 := by
    obtain ⟨hlo, hhi⟩ := floorLog2Q_spec 1 one_pos
    by_contra hcon
    rcases lt_or_gt_of_ne hcon with hl | hg
    · have : (2:ℚ) ^ (floorLog2Q 1 + 1) ≤ 2 ^ (0 : ℤ) := le_zpow_iff_zpow_le.mp (by omega)
      simp only [zpow_zero] at this
      linarith
    · have : (2:ℚ) ^ (1 : ℤ) ≤ 2 ^ floorLog2Q 1 := le_zpow_iff_zpow_le.mp (by omega)
      have h2 : ((2:ℚ) ^ (1 : ℤ)) = 2 := by norm_num
      linarith [h2 ▸ this]
  unfold roundDouble
  rw [if_pos one_pos, he]
  rw [show ((52 : ℤ) - 0) = (52 : ℤ) by ring, show ((0 : ℤ) - 52) = -(52 : ℤ) by ring]
  have h1 : (1 : ℚ) * 2 ^ ((52 : ℤ)) = ((2 ^ (52 : ℕ) : ℤ) : ℚ) := by
    push_cast
    norm_num
  rw [h1, rhe_intCast]
  have h2 : ((2 ^ (52 : ℕ) : ℤ) : ℚ) = 2 ^ ((52 : ℤ)) := by
    push_cast
    norm_num
  rw [h2, ← zpow_add₀ (by norm_num : (2:ℚ) ≠ 0)]
  norm_num

/-- `roundDouble q ≤ 1` whenever `q ≤ 1`. -/
theorem roundDouble_le_one {q : ℚ} (h : q ≤ 1) : roundDouble q ≤ 1 := by
  calc roundDouble q ≤ roundDouble 1 := roundDouble_mono h
    _ = 1 := roundDouble_one

/-- `roundDouble` fixes integers up to `2^53` (every such integer is a
binary64 value). -/
theorem roundDouble_intCast {n : ℤ} (h0 : 0 ≤ n) (h : n ≤ 2 ^ 53) :
    roundDouble (n : ℚ) = (n : ℚ) := by
  rcases eq_or_lt_of_le h0 with h0 | h0
  · rw [← h0]
    unfold roundDouble
    norm_num
  have hq : (0 : ℚ) < (n : ℚ) := by exact_mod_cast h0
  obtain ⟨hlo, hhi⟩ := floorLog2Q_spec _ hq
  set e := floorLog2Q (n : ℚ) with he
  have hele : e ≤ 53 := by
    by_contra hcon
    push_neg at hcon
    have h1 : (2:ℚ) ^ (54 : ℤ) ≤ 2 ^ e := le_zpow_iff_zpow_le.mp (by omega)
    have h2 : ((n : ℚ)) ≤ ((2:ℤ)^53 : ℚ) := by exact_mod_cast h
    have h3 : ((2:ℤ)^53 : ℚ) < (2:ℚ) ^ (54 : ℤ) := by
      push_cast
      rw [show ((54 : ℤ)) = ((54 : ℕ) : ℤ) by norm_num, zpow_natCast]
      norm_num
    linarith
  have hepos : 0 ≤ e := by
    by_contra hcon
    push_neg at hcon
    have h1 : (2:ℚ) ^ (e + 1) ≤ 2 ^ (0 : ℤ) := le_zpow_iff_zpow_le.mp (by omega)
    simp only [zpow_zero] at h1
    have h2 : (1 : ℚ) ≤ (n : ℚ) := by exact_mod_cast h0
    linarith
  unfold roundDouble
  rw [if_pos hq, ← he]
  rcases le_or_lt e 52 with hc | hc
  · have hk : (52 : ℤ) - e = ((52 - e.toNat : ℕ) : ℤ) := by omega
    have hx : (n : ℚ) * 2 ^ ((52 : ℤ) - e) =
        ((n * 2 ^ (52 - e.toNat : ℕ) : ℤ) : ℚ) := by
      rw [hk, zpow_natCast]
      push_cast
      ring
    rw [hx, rhe_intCast]
    push_cast
    rw [mul_assoc, ← zpow_natCast (2:ℚ) (52 - e.toNat), ← hk,
      ← zpow_add₀ (by norm_num : (2:ℚ) ≠ 0)]
    rw [show ((52 : ℤ) - e + (e - 52)) = (0 : ℤ) by ring]
    norm_num
  · have he53 : e = 53 := by omega
    have hcast : ((2 ^ 53 : ℤ) : ℚ) = (2 : ℚ) ^ ((53 : ℤ)) := by
      push_cast
      norm_num
    have hnz : n = 2 ^ 53 := by
      have h1 : ((2 ^ 53 : ℤ) : ℚ) ≤ (n : ℚ) := by
        rw [hcast, ← he53]
        exact hlo
      have h2 : (2 ^ 53 : ℤ) ≤ n := by exact_mod_cast h1
      omega
    subst hnz
    rw [he53]
    have hx : ((2 ^ 53 : ℤ) : ℚ) * 2 ^ ((52 : ℤ) - 53) = ((2 ^ 52 : ℤ) : ℚ) := by
      rw [hcast, ← zpow_add₀ (by norm_num : (2:ℚ) ≠ 0)]
      rw [show ((53 : ℤ) + (52 - 53)) = (52 : ℤ) by ring]
      push_cast
      norm_num
    rw [hx, rhe_intCast]
    have hy : ((2 ^ 52 : ℤ) : ℚ) = (2 : ℚ) ^ ((52 : ℤ)) := by
      push_cast
      norm_num
    rw [hy, ← zpow_add₀ (by norm_num : (2:ℚ) ≠ 0)]
    rw [show ((52 : ℤ) + (53 - 52)) = (53 : ℤ) by ring, hcast.symm]

theorem next_range (s : ℤ) :
    0 ≤ (SeededRandom.next s).1 ∧ (SeededRandom.next s).1 ≤ 1 := by
  unfold SeededRandom.next
  dsimp only
  set s2 : ℤ := (s * 1103515245 + 12345) % 2 ^ 31 with hs2
  have h0 : 0 ≤ s2 := Int.emod_nonneg _ (by norm_num)
  have h1 : s2 < 2 ^ 31 := Int.emod_lt_of_pos _ (by norm_num)
  have hden : (0 : ℚ) < (2 : ℚ) ^ 31 - 1 := by norm_num
  have hq0 : (0 : ℚ) ≤ (s2 : ℚ) / ((2 : ℚ) ^ 31 - 1) := by
    apply div_nonneg _ (le_of_lt hden)
    exact_mod_cast h0
  have hq1 : (s2 : ℚ) / ((2 : ℚ) ^ 31 - 1) ≤ 1 := by
    rw [div_le_one hden]
    have : (s2 : ℚ) ≤ ((2 ^ 31 - 1 : ℤ) : ℚ) := by
      exact_mod_cast (by omega : s2 ≤ 2 ^ 31 - 1)
    calc (s2 : ℚ) ≤ ((2 ^ 31 - 1 : ℤ) : ℚ) := this
      _ = (2 : ℚ) ^ 31 - 1 := by push_cast; norm_num
  exact ⟨roundDouble_nonneg _, roundDouble_le_one hq1⟩

theorem next_int_range (mn mx s : ℤ) (h : mn ≤ mx) (hr : mx - mn + 1 ≤ 2 ^ 53) :
    mn ≤ (SeededRandom.next_int mn mx s).1 ∧
      (SeededRandom.next_int mn mx s).1 ≤ mx + 1 := by
  obtain ⟨hv0, hv1⟩ := next_range s
  unfold SeededRandom.next_int
  rw [if_neg (not_lt.mpr h)]
  dsimp only
  set v := (SeededRandom.next s).1 with hv
  set n : ℤ := mx - mn + 1 with hn
  have hn1 : (1 : ℤ) ≤ n := by omega
  have rdn : roundDouble ((n : ℤ) : ℚ) = ((n : ℤ) : ℚ) :=
    roundDouble_intCast (by omega) hr
  have hprod : v * roundDouble ((n : ℤ) : ℚ) ≤ ((n : ℤ) : ℚ) := by
    rw [rdn]
    calc v * ((n : ℤ) : ℚ) ≤ 1 * ((n : ℤ) : ℚ) := by
          apply mul_le_mul_of_nonneg_right hv1
          exact_mod_cast (by omega : (0:ℤ) ≤ n)
      _ = ((n : ℤ) : ℚ) := one_mul _
  have hub : roundDouble (v * roundDouble ((n : ℤ) : ℚ)) ≤ ((n : ℤ) : ℚ) := by
    calc roundDouble (v * roundDouble ((n : ℤ) : ℚ))
        ≤ roundDouble ((n : ℤ) : ℚ) := roundDouble_mono hprod
      _ = ((n : ℤ) : ℚ) := rdn
  have hfl_ub : ⌊roundDouble (v * roundDouble ((n : ℤ) : ℚ))⌋ ≤ n := by
    have := Int.floor_le_floor hub
    rw [Int.floor_intCast] at this
    exact this
  have hfl_lb : 0 ≤ ⌊roundDouble (v * roundDouble ((n : ℤ) : ℚ))⌋ :=
    Int.floor_nonneg.mpr (roundDouble_nonneg _)
  omega

/-- C8 (corrected): the source's PRNG contract is `next() ∈ [0, 1]` —
closed on the right, not `[0, 1)` — and, for `min ≤ max` with a range
size in the exactly-representable span `max - min + 1 ≤ 2^53`,
`next_int(min, max) ∈ [min, max + 1]` — where `max + 1` is attained
(see the counterexample theorem), so `choice`/`shuffle` can index out of
bounds and raise. -/
theorem seeded_random_range :
    (∀ s : ℤ, 0 ≤ (SeededRandom.next s).1 ∧ (SeededRandom.next s).1 ≤ 1) ∧
    (∀ mn mx s : ℤ, mn ≤ mx → mx - mn + 1 ≤ 2 ^ 53 →
      mn ≤ (SeededRandom.next_int mn mx s).1 ∧
        (SeededRandom.next_int mn mx s).1 ≤ mx + 1) :=
  ⟨next_range, next_int_range⟩

/-- Witness for `seeded_random_range` at concrete inputs. -/
theorem seeded_random_range_witness :
    (0 ≤ (SeededRandom.next 5).1 ∧ (SeededRandom.next 5).1 ≤ 1) ∧
    (3 ≤ (SeededRandom.next_int 3 7 1).1 ∧
      (SeededRandom.next_int 3 7 1).1 ≤ 8) :=
  ⟨seeded_random_range.1 5,
    seeded_random_range.2 3 7 1 (by norm_num) (by norm_num)⟩

unseal Rat.mul Rat.inv Rat.add Rat.sub in
/-- C8 counterexample: with the LCG state that maps to `0x7FFFFFFF`
(seed 230538014), `next()` returns exactly `1.0 ∉ [0, 1)`,
`next_int(0, 0)` returns `1 ∉ [0, 0]`, and `choice` on a one-element
list raises `IndexError` (modelled by `none`) instead of returning an
element. -/
theorem seeded_random_range_counterexample :
    (SeededRandom.next 230538014).1 = 1 ∧
    ¬ ((SeededRandom.next 230538014).1 < 1) ∧
    (SeededRandom.next_int 0 0 230538014).1 = 1 ∧
    ¬ ((SeededRandom.next_int 0 0 230538014).1 ≤ 0) ∧
    SeededRandom.choice ["x"] 230538014 = none := by
  refine ⟨by decide, by decide, by decide, by decide, by decide⟩

/-! ## The cycle check `DAG.would_create_cycle` (claim C7)

Correctness of the explicit-stack DFS: fuel sufficiency, soundness and
completeness, assembled into the characterisation of
`would_create_cycle` as reachability from a blocker to the candidate. -/

theorem mem_dagNodes_of_mem {g : DAGT} {p : String × List String} (hp : p ∈ g) :
    p.1 ∈ dagNodes g ∧ ∀ b ∈ p.2, b ∈ dagNodes g := by
  induction g with
  | nil => cases hp
  | cons q t ih =>
    have hins : ∀ (l : List String) (acc : Finset String) (x : String),
        x ∈ l.foldr insert acc ↔ x ∈ l ∨ x ∈ acc := by
      intro l
      induction l with
      | nil => simp
      | cons a tl ihl => intro acc x; simp [ihl]; tauto
    rcases List.mem_cons.mp hp with h | hp
    · subst h
      refine ⟨by simp [dagNodes], fun b hb => ?_⟩
      simp only [dagNodes, List.foldr_cons]
      rw [Finset.mem_insert, hins]
      exact Or.inr (Or.inl hb)
    · rcases ih hp with ⟨h1, h2⟩
      constructor
      · simp only [dagNodes, List.foldr_cons]
        rw [Finset.mem_insert, hins]
        exact Or.inr (Or.inr h1)
      · intro b hb
        simp only [dagNodes, List.foldr_cons]
        rw [Finset.mem_insert, hins]
        exact Or.inr (Or.inr (h2 b hb))

theorem dagLookup_mem {g : DAGT} {k : String} {bs : List String}
    (h : dagLookup g k = some bs) : (k, bs) ∈ g := by
  unfold dagLookup at h
  rcases hfind : g.find? (fun p => p.1 = k) with _ | p
  · rw [hfind] at h; cases h
  · rw [hfind] at h
    have hpg : p ∈ g := List.mem_of_find?_eq_some hfind
    have hk : p.1 = k := by
      have := List.find?_some hfind
      simpa using this
    have hbs : p.2 = bs := by simpa using h
    have : p = (k, bs) := Prod.ext hk hbs
    exact this ▸ hpg

theorem dagSucc_subset {g : DAGT} {k : String} : ∀ b ∈ dagSucc g k, b ∈ dagNodes g := by
  intro b hb
  unfold dagSucc at hb
  rcases hfind : dagLookup g k with _ | bs
  · rw [hfind] at hb; cases hb
  · rw [hfind] at hb
    exact (mem_dagNodes_of_mem (dagLookup_mem hfind)).2 b (by simpa using hb)

theorem dagSucc_length_le {g : DAGT} {k : String} :
    (dagSucc g k).length ≤ dagTotalLen g := by
  unfold dagSucc
  rcases hfind : dagLookup g k with _ | bs
  · simp [dagTotalLen]
  · simp only [Option.getD_some]
    have hpg := dagLookup_mem hfind
    unfold dagTotalLen
    have : bs.length ∈ g.map (fun p => p.2.length) := by
      exact List.mem_map.mpr ⟨(k, bs), hpg, rfl⟩
    exact List.le_sum_of_mem this

theorem mem_dagSucc_iff {g : DAGT} {k b : String} :
    b ∈ dagSucc g k ↔ ∃ bs, dagLookup g k = some bs ∧ b ∈ bs := by
  unfold dagSucc
  rcases hfind : dagLookup g k with _ | bs
  · simp
  · simp

/-- Fuel sufficiency for the DFS: the loop terminates within
`|stack| + |unvisited frontier| * (total blocker-list length + 1)`
iterations. -/
theorem hasPathAux_isSome (g : DAGT) (to_id : String) :
    ∀ (fuel : ℕ) (visited : Finset String) (stack : List String),
    ((dagNodes g ∪ stack.toFinset) \ visited).card * (dagTotalLen g + 1)
      + stack.length < fuel →
    (hasPathAux g to_id fuel visited stack).isSome = true := by
  intro fuel
  induction fuel with
  | zero => intro _ _ h; omega
  | succ f ih =>
    intro visited stack hm
    match stack with
    | [] => simp [hasPathAux]
    | node :: rest =>
      simp only [hasPathAux]
      split_ifs with h1 h2
      · simp
      · -- node already visited: the frontier set is unchanged
        apply ih
        have hset : (dagNodes g ∪ (node :: rest).toFinset) \ visited =
            (dagNodes g ∪ rest.toFinset) \ visited ∪ ({node} \ visited) := by
          ext x
          simp only [Finset.mem_sdiff, Finset.mem_union, List.toFinset_cons,
            Finset.mem_insert, Finset.mem_singleton]
          tauto
        have hsub : (dagNodes g ∪ rest.toFinset) \ visited ⊆
            (dagNodes g ∪ (node :: rest).toFinset) \ visited := by
          intro x hx
          simp only [Finset.mem_sdiff, Finset.mem_union, List.toFinset_cons,
            Finset.mem_insert] at hx ⊢
          tauto
        have hcard := Finset.card_le_card hsub
        have hmul2 : ((dagNodes g ∪ rest.toFinset) \ visited).card *
            (dagTotalLen g + 1) ≤
            ((dagNodes g ∪ (node :: rest).toFinset) \ visited).card *
            (dagTotalLen g + 1) := Nat.mul_le_mul_right _ hcard
        simp only [List.length_cons] at hm
        omega
      · -- new node: the frontier strictly shrinks
        apply ih
        have hnode : node ∈ (dagNodes g ∪ (node :: rest).toFinset) \ visited := by
          refine Finset.mem_sdiff.mpr ⟨Finset.mem_union_right _ ?_, h2⟩
          simp
        have hsub : (dagNodes g ∪ (rest ++ dagSucc g node).toFinset) \
            insert node visited ⊆
            ((dagNodes g ∪ (node :: rest).toFinset) \ visited).erase node := by
          intro x hx
          simp only [Finset.mem_sdiff, Finset.mem_union, Finset.mem_insert,
            List.toFinset_append, List.toFinset_cons, Finset.mem_erase] at hx ⊢
          push_neg at hx
          obtain ⟨hx1, hx2, hx3⟩ := hx
          refine ⟨hx2, ?_, hx3⟩
          rcases hx1 with h | h | h
          · exact Or.inl h
          · exact Or.inr (Or.inr h)
          · exact Or.inl (dagSucc_subset x (by simpa using h))
        have hcard : ((dagNodes g ∪ (rest ++ dagSucc g node).toFinset) \
            insert node visited).card + 1 ≤
            ((dagNodes g ∪ (node :: rest).toFinset) \ visited).card := by
          calc ((dagNodes g ∪ (rest ++ dagSucc g node).toFinset) \
                insert node visited).card + 1
              ≤ (((dagNodes g ∪ (node :: rest).toFinset) \ visited).erase
                node).card + 1 := by
                have := Finset.card_le_card hsub
                omega
            _ = ((dagNodes g ∪ (node :: rest).toFinset) \ visited).card := by
                rw [Finset.card_erase_of_mem hnode]
                have : 0 < ((dagNodes g ∪ (node :: rest).toFinset) \ visited).card :=
                  Finset.card_pos.mpr ⟨node, hnode⟩
                omega
        have hlen : (rest ++ dagSucc g node).length ≤ rest.length + dagTotalLen g := by
          rw [List.length_append]
          have := dagSucc_length_le (g := g) (k := node)
          omega
        set c1 := ((dagNodes g ∪ (rest ++ dagSucc g node).toFinset) \
          insert node visited).card with hc1
        set c2 := ((dagNodes g ∪ (node :: rest).toFinset) \ visited).card with hc2
        set K := dagTotalLen g + 1 with hK
        simp only [List.length_cons] at hm
        have hmul : c1 * K + K ≤ c2 * K := by
          have : (c1 + 1) * K ≤ c2 * K := Nat.mul_le_mul_right K hcard
          nlinarith
        have hK1 : 1 ≤ K := by omega
        omega

/-- DFS soundness: if the loop answers `true` and every stack element is
reachable from `src`, then the target is reachable from `src`. -/
theorem hasPathAux_sound (g : DAGT) (to_id src : String) :
    ∀ (fuel : ℕ) (visited : Finset String) (stack : List String),
    (∀ x ∈ stack, Reach g src x) →
    hasPathAux g to_id fuel visited stack = some true →
    Reach g src to_id := by
  intro fuel
  induction fuel with
  | zero => intro _ _ _ h; cases h
  | succ f ih =>
    intro visited stack hstack hrun
    match stack with
    | [] => cases hrun
    | node :: rest =>
      simp only [hasPathAux] at hrun
      split_ifs at hrun with h1 h2
      · exact h1 ▸ hstack node (List.mem_cons_self _ _)
      · exact ih visited rest
          (fun x hx => hstack x (List.mem_cons_of_mem _ hx)) hrun
      · refine ih (insert node visited) (rest ++ dagSucc g node) ?_ hrun
        intro x hx
        rcases List.mem_append.mp hx with hx | hx
        · exact hstack x (List.mem_cons_of_mem _ hx)
        · exact Relation.ReflTransGen.tail
            (hstack node (List.mem_cons_self _ _))
            (mem_dagSucc_iff.mp hx)

/-- DFS completeness: if the loop answers `false`, the target was not in
`visited`, and every visited node's successors are in `visited` or on
the stack, then the target is unreachable from every visited or stacked
node. -/
theorem hasPathAux_complete (g : DAGT) (to_id : String) :
    ∀ (fuel : ℕ) (visited : Finset String) (stack : List String),
    hasPathAux g to_id fuel visited stack = some false →
    to_id ∉ visited →
    (∀ v ∈ visited, ∀ y ∈ dagSucc g v, y ∈ visited ∨ y ∈ stack) →
    ∀ x, (x ∈ visited ∨ x ∈ stack) → ¬ Reach g x to_id := by
  intro fuel
  induction fuel with
  | zero => intro _ _ h; cases h
  | succ f ih =>
    intro visited stack hrun htv hK x hx hreach
    match stack with
    | [] =>
      -- visited is successor-closed, so reachability stays inside it
      have hclosed : ∀ u v, u ∈ visited → dagStep g u v → v ∈ visited := by
        intro u v hu hs
        have hsucc : v ∈ dagSucc g u := mem_dagSucc_iff.mpr hs
        rcases hK u hu v hsucc with h | h
        · exact h
        · cases h
      have hxv : x ∈ visited := by
        rcases hx with h | h
        · exact h
        · cases h
      have : to_id ∈ visited := by
        clear ih hrun htv hK hx
        induction hreach with
        | refl => exact hxv
        | tail hr hs ihr => exact hclosed _ _ ihr hs
      exact htv this
    | node :: rest =>
      simp only [hasPathAux] at hrun
      split_ifs at hrun with h1 h2
      · cases hrun
      · -- node already visited
        refine ih visited rest hrun htv ?_ x ?_ hreach
        · intro v hv y hy
          rcases hK v hv y hy with h | h
          · exact Or.inl h
          · rcases List.mem_cons.mp h with h | h
            · exact Or.inl (h ▸ h2)
            · exact Or.inr h
        · rcases hx with h | h
          · exact Or.inl h
          · rcases List.mem_cons.mp h with h | h
            · exact Or.inl (h ▸ h2)
            · exact Or.inr h
      · -- new node
        refine ih (insert node visited) (rest ++ dagSucc g node) hrun ?_ ?_ x ?_ hreach
        · intro hc
          rcases Finset.mem_insert.mp hc with h | h
          · exact h1 h.symm
          · exact htv h
        · intro v hv y hy
          rcases Finset.mem_insert.mp hv with h | h
          · subst h
            exact Or.inr (List.mem_append.mpr (Or.inr hy))
          · rcases hK v h y hy with hh | hh
            · exact Or.inl (Finset.mem_insert_of_mem hh)
            · rcases List.mem_cons.mp hh with hh | hh
              · exact Or.inl (hh ▸ Finset.mem_insert_self _ _)
              · exact Or.inr (List.mem_append.mpr (Or.inl hh))
        · rcases hx with h | h
          · exact Or.inl (Finset.mem_insert_of_mem h)
          · rcases List.mem_cons.mp h with h | h
            · exact Or.inl (h ▸ Finset.mem_insert_self _ _)
            · exact Or.inr (List.mem_append.mpr (Or.inl h))

/-- `DAG._has_path` decides reachability over the stored blocker
edges. -/
theorem has_path_iff_reach (g : DAGT) (from_id to_id : String) :
    DAG.has_path g from_id to_id = true ↔ Reach g from_id to_id := by
  unfold DAG.has_path
  constructor
  · intro h
    rcases hrun : hasPathAux g to_id (hasPathFuel g) ∅ [from_id] with _ | b
    · rw [hrun] at h
      cases h
    · rw [hrun] at h
      match b with
      | false => cases h
      | true =>
        exact hasPathAux_sound g to_id from_id (hasPathFuel g) ∅ [from_id]
          (fun x hx => by
            rcases List.mem_cons.mp hx with h | h
            · exact h ▸ Relation.ReflTransGen.refl
            · cases h) hrun
  · intro hreach
    have hsome := hasPathAux_isSome g to_id (hasPathFuel g) ∅ [from_id] (by
      unfold hasPathFuel
      have hsub : (dagNodes g ∪ [from_id].toFinset) \ ∅ ⊆
          insert from_id (dagNodes g) := by
        intro x hx
        simp only [Finset.mem_sdiff, Finset.mem_union, List.toFinset_cons,
          List.toFinset_nil, Finset.mem_insert] at hx ⊢
        tauto
      have hcard : ((dagNodes g ∪ [from_id].toFinset) \ ∅).card ≤
          (dagNodes g).card + 1 := by
        calc ((dagNodes g ∪ [from_id].toFinset) \ ∅).card
            ≤ (insert from_id (dagNodes g)).card := Finset.card_le_card hsub
          _ ≤ (dagNodes g).card + 1 := Finset.card_insert_le _ _
      have := Nat.mul_le_mul_right (dagTotalLen g + 1) hcard
      simp only [List.length_cons, List.length_nil]
      omega)
    rcases hrun : hasPathAux g to_id (hasPathFuel g) ∅ [from_id] with _ | b
    · rw [hrun] at hsome
      cases hsome
    · match b with
      | true => rfl
      | false =>
        exfalso
        exact hasPathAux_complete g to_id (hasPathFuel g) ∅ [from_id] hrun
          (Finset.not_mem_empty _)
          (fun v hv => absurd hv (Finset.not_mem_empty _))
          from_id (Or.inr (List.mem_cons_self _ _)) hreach

/-- C7 (confirmed): `would_create_cycle(candidate, blockers)` returns
true iff the candidate is reachable from some blocker over the existing
edges — including the degenerate case where the candidate is among its
own blockers (reachability is reflexive). -/
theorem would_create_cycle_iff_reach (g : DAGT) (cand : String)
    (blocker_ids : List String) :
    (DAG.would_create_cycle g cand blocker_ids = true ↔
      ∃ b ∈ blocker_ids, Reach g b cand) ∧
    (cand ∈ blocker_ids → DAG.would_create_cycle g cand blocker_ids = true) := by
  have hmain : DAG.would_create_cycle g cand blocker_ids = true ↔
      ∃ b ∈ blocker_ids, Reach g b cand := by
    unfold DAG.would_create_cycle
    rw [List.any_eq_true]
    constructor
    · rintro ⟨b, hb, hp⟩
      exact ⟨b, hb, (has_path_iff_reach g b cand).mp hp⟩
    · rintro ⟨b, hb, hr⟩
      exact ⟨b, hb, (has_path_iff_reach g b cand).mpr hr⟩
  exact ⟨hmain, fun hmem => hmain.mpr ⟨cand, hmem, Relation.ReflTransGen.refl⟩⟩

/-- Witness for `would_create_cycle_iff_reach` at a concrete graph:
in the dict `{"a1": {"a0"}}`, adding candidate `a0` with blocker `a1`
closes a cycle (`a1` reaches `a0`), and a candidate among its own
blockers is always rejected. -/
theorem would_create_cycle_iff_reach_witness :
    DAG.would_create_cycle [("a1", ["a0"])] "a0" ["a1"] = true ∧
    DAG.would_create_cycle [] "z" ["z"] = true := by
  constructor
  · exact (would_create_cycle_iff_reach [("a1", ["a0"])] "a0" ["a1"]).1.mpr
      ⟨"a1", by simp, Relation.ReflTransGen.single ⟨["a0"], rfl, by simp⟩⟩
  · exact (would_create_cycle_iff_reach [] "z" ["z"]).2 (by simp)

/-! ## The arrow grower (claim C10) -/

theorem move_adjacent (cur : Cell) (d : Dir) :
    (cur.1 - (move_in_direction cur d).1).natAbs +
      (cur.2 - (move_in_direction cur d).2).natAbs = 1 := by
  cases d <;> simp [move_in_direction, DIRECTION_VECTORS] <;> omega

theorem move_ne (cur : Cell) (d : Dir) : move_in_direction cur d ≠ cur := by
  cases d <;> simp [move_in_direction, DIRECTION_VECTORS, Prod.ext_iff] <;> omega

theorem mem_growCandidates {grid : Grid} {cells : List Cell} {current : Cell}
    {cdir : Dir} {pd : Cell × Dir}
    (h : pd ∈ growCandidates grid cells current cdir) :
    pd.1 = move_in_direction current pd.2 ∧
      grid.is_valid_and_free pd.1 = true ∧ pd.1 ∉ cells := by
  unfold growCandidates at h
  rcases List.mem_filterMap.mp h with ⟨d, _, hd⟩
  dsimp only at hd
  split_ifs at hd with hcond
  cases hd
  exact ⟨rfl, by simpa using hcond.1, hcond.2⟩


/-- The invariant of the tail-growth loop: the grown list extends the
input, stays duplicate-free, within free in-bounds cells, orthogonally
connected, and grows by at most `fuel` cells. -/
theorem growTail_post (grid : Grid) (target : ℤ) :
    ∀ (fuel : ℕ) (cells : List Cell) (current : Cell) (cdir : Dir) (s : ℤ)
      (out : List Cell × ℤ),
    growTail grid target fuel cells current cdir s = some out →
    cells.Nodup →
    (∀ c ∈ cells, grid.is_valid_and_free c = true) →
    List.Chain' (fun a b => (a.1 - b.1).natAbs + (a.2 - b.2).natAbs = 1) cells →
    cells.getLast? = some current →
    (∃ ext, out.1 = cells ++ ext) ∧
      out.1.length ≤ cells.length + fuel ∧
      out.1.Nodup ∧
      (∀ c ∈ out.1, grid.is_valid_and_free c = true) ∧
      List.Chain' (fun a b => (a.1 - b.1).natAbs + (a.2 - b.2).natAbs = 1) out.1 := by
  intro fuel
  induction fuel with
  | zero =>
    intro cells current cdir s out hrun hnd hfree hchain hlast
    cases hrun
    exact ⟨⟨[], by simp⟩, by simp, hnd, hfree, hchain⟩
  | succ f ih =>
    intro cells current cdir s out hrun hnd hfree hchain hlast
    simp only [growTail] at hrun
    by_cases hlen : (cells.length : ℤ) < target
    · rw [if_pos hlen] at hrun
      by_cases hemp : (growCandidates grid cells current cdir).isEmpty
      · rw [if_pos hemp] at hrun
        cases hrun
        exact ⟨⟨[], by simp⟩, by simp, hnd, hfree, hchain⟩
      · rw [if_neg hemp] at hrun
        -- helper facts for any appended candidate
        have hstep : ∀ (pd : Cell × Dir) (s3 : ℤ),
            pd ∈ growCandidates grid cells current cdir →
            growTail grid target f (cells ++ [pd.1]) pd.1 pd.2 s3 = some out →
            (∃ ext, out.1 = cells ++ ext) ∧
              out.1.length ≤ cells.length + (f + 1) ∧
              out.1.Nodup ∧
              (∀ c ∈ out.1, grid.is_valid_and_free c = true) ∧
              List.Chain' (fun a b => (a.1 - b.1).natAbs + (a.2 - b.2).natAbs = 1)
                out.1 := by
          intro pd s3 hpd hrun2
          obtain ⟨hmove, hvf, hnotmem⟩ := mem_growCandidates hpd
          have hnd2 : (cells ++ [pd.1]).Nodup := by
            rw [List.nodup_append]
            exact ⟨hnd, List.nodup_singleton _, by
              intro a ha hb
              simp only [List.mem_singleton] at hb
              exact hnotmem (hb ▸ ha)⟩
          have hfree2 : ∀ c ∈ cells ++ [pd.1], grid.is_valid_and_free c = true := by
            intro c hc
            rcases List.mem_append.mp hc with hc | hc
            · exact hfree c hc
            · simp only [List.mem_singleton] at hc
              exact hc ▸ hvf
          have hchain2 : List.Chain'
              (fun a b => (a.1 - b.1).natAbs + (a.2 - b.2).natAbs = 1)
              (cells ++ [pd.1]) := by
            rw [List.chain'_append]
            refine ⟨hchain, List.chain'_singleton _, ?_⟩
            intro x hx y hy
            simp only [List.head?_cons, Option.mem_def, Option.some_inj] at hy
            rw [hlast] at hx
            simp only [Option.mem_def, Option.some_inj] at hx
            subst hx
            subst hy
            rw [hmove]
            exact move_adjacent current pd.2
          have hlast2 : (cells ++ [pd.1]).getLast? = some pd.1 := by
            simp [List.getLast?_append]
          obtain ⟨⟨ext, hext⟩, hlen2, hnd3, hfree3, hchain3⟩ :=
            ih (cells ++ [pd.1]) pd.1 pd.2 s3 out hrun2 hnd2 hfree2 hchain2 hlast2
          refine ⟨⟨pd.1 :: ext, by simpa using hext⟩, ?_, hnd3, hfree3, hchain3⟩
          rw [List.length_append, List.length_singleton] at hlen2
          omega
        have hchoice : ∀ (s2 : ℤ) (cs : Option (Cell × Dir) × ℤ),
            SeededRandom.choice (growCandidates grid cells current cdir) s2 =
              some cs →
            ∀ pd2, cs.1 = some pd2 → pd2 ∈ growCandidates grid cells current cdir := by
          intro s2 cs hch pd2 hcs
          simp only [SeededRandom.choice] at hch
          rw [if_neg hemp] at hch
          split_ifs at hch with hidx
          · simp only [Option.some_inj] at hch
            rw [← hch] at hcs
            simp only [Option.some_inj] at hcs
            rw [← hcs]
            exact List.get_mem _ _ _
        -- dispatch on the straight/choice draw structure
        rcases hfind : (growCandidates grid cells current cdir).find?
            (fun pd => pd.2 = cdir) with _ | pd0
        · rw [hfind] at hrun
          simp only [Option.bind_eq_bind] at hrun
          rcases hch : SeededRandom.choice (growCandidates grid cells current cdir) s
            with _ | cs
          · rw [hch] at hrun
            cases hrun
          · rw [hch] at hrun
            simp only [Option.some_bind] at hrun
            rcases hcs : cs.1 with _ | pd2
            · rw [hcs] at hrun
              cases hrun
            · rw [hcs] at hrun
              exact hstep pd2 cs.2 (hchoice s cs hch pd2 hcs) hrun
        · rw [hfind] at hrun
          dsimp only at hrun
          have hpd0 : pd0 ∈ growCandidates grid cells current cdir :=
            List.mem_of_find?_eq_some hfind
          by_cases hdraw : (SeededRandom.next s).1 < lit08
          · rw [if_pos hdraw] at hrun
            exact hstep pd0 (SeededRandom.next s).2 hpd0 hrun
          · rw [if_neg hdraw] at hrun
            simp only [Option.bind_eq_bind] at hrun
            rcases hch : SeededRandom.choice (growCandidates grid cells current cdir)
                (SeededRandom.next s).2 with _ | cs
            · rw [hch] at hrun
              cases hrun
            · rw [hch] at hrun
              simp only [Option.some_bind] at hrun
              rcases hcs : cs.1 with _ | pd2
              · rw [hcs] at hrun
                cases hrun
              · rw [hcs] at hrun
                exact hstep pd2 cs.2 (hchoice (SeededRandom.next s).2 cs hch pd2 hcs)
                  hrun
    · rw [if_neg hlen] at hrun
      cases hrun
      exact ⟨⟨[], by simp⟩, by simp, hnd, hfree, hchain⟩

/-- C10: whenever `grow_arrow_strict_direction` returns an arrow, the
arrow starts at `start`, its second cell is the neck `start + direction`,
it keeps the requested direction, has between 2 and `max 2 target` cells,
all pairwise distinct, in bounds and free, consecutive cells orthogonally
adjacent; and for `target < 2` it still returns the 2-cell arrow
`[start, neck]` with the RNG state untouched whenever head and neck are
valid and free. -/
theorem grow_arrow_postconditions (start : Cell) (direction : Dir)
    (target : ℤ) (grid : Grid) (s : ℤ) :
    (∀ (ga : GrownArrow) (s2 : ℤ),
      grow_arrow_strict_direction start direction target grid s =
        some (some ga, s2) →
      ga.direction = direction ∧
      ga.cells.head? = some start ∧
      ga.cells.get? 1 = some (move_in_direction start direction) ∧
      2 ≤ ga.cells.length ∧
      (ga.cells.length : ℤ) ≤ max 2 target ∧
      ga.cells.Nodup ∧
      (∀ c ∈ ga.cells, grid.is_valid_and_free c = true) ∧
      List.Chain' (fun a b => (a.1 - b.1).natAbs + (a.2 - b.2).natAbs = 1)
        ga.cells) ∧
    (target < 2 →
      grid.is_valid_and_free start = true →
      grid.is_valid_and_free (move_in_direction start direction) = true →
      grow_arrow_strict_direction start direction target grid s =
        some (some ⟨[start, move_in_direction start direction], direction⟩, s)) := by
  constructor
  · intro ga s2 hrun
    unfold grow_arrow_strict_direction at hrun
    rcases hstart : grid.is_valid_and_free start with _ | _
    · rw [hstart] at hrun
      simp only [Bool.not_false, if_true] at hrun
      cases hrun
    · rw [hstart] at hrun
      simp only [Bool.not_true, Bool.false_eq_true, if_false] at hrun
      rcases hneck : grid.is_valid_and_free (move_in_direction start direction)
          with _ | _
      · rw [hneck] at hrun
        simp only [Bool.not_false, if_true] at hrun
        cases hrun
      · rw [hneck] at hrun
        simp only [Bool.not_true, Bool.false_eq_true, if_false,
          Option.bind_eq_bind] at hrun
        rcases hgt : growTail grid target (target - 2).toNat
            [start, move_in_direction start direction]
            (move_in_direction start direction) direction s with _ | r
        · rw [hgt] at hrun
          cases hrun
        · rw [hgt] at hrun
          simp only [Option.some_bind] at hrun
          by_cases hl2 : r.1.length < 2
          · rw [if_pos hl2] at hrun
            cases hrun
          · rw [if_neg hl2] at hrun
            have hga : ga = ⟨r.1, direction⟩ ∧ s2 = r.2 := by
              constructor <;> · injection hrun with h1; injection h1 with h2 h3; simp_all
            obtain ⟨hga, -⟩ := hga
            subst hga
            have hnd0 : ([start, move_in_direction start direction] : List Cell).Nodup := by
              simp [List.nodup_cons]
              exact (move_ne start direction).symm
            have hfree0 : ∀ c ∈ ([start, move_in_direction start direction] : List Cell),
                grid.is_valid_and_free c = true := by
              intro c hc
              simp only [List.mem_cons, List.not_mem_nil, or_false] at hc
              rcases hc with rfl | rfl
              · exact hstart
              · exact hneck
            have hchain0 : List.Chain'
                (fun a b => (a.1 - b.1).natAbs + (a.2 - b.2).natAbs = 1)
                [start, move_in_direction start direction] := by
              simp [List.chain'_cons]
              exact move_adjacent start direction
            have hlast0 : ([start, move_in_direction start direction] : List Cell).getLast?
                = some (move_in_direction start direction) := by simp
            obtain ⟨⟨ext, hext⟩, hlenb, hnd, hfree, hchain⟩ :=
              growTail_post grid target (target - 2).toNat
                [start, move_in_direction start direction]
                (move_in_direction start direction) direction s r hgt
                hnd0 hfree0 hchain0 hlast0
            refine ⟨rfl, ?_, ?_, ?_, ?_, hnd, hfree, hchain⟩
            · rw [hext]; rfl
            · rw [hext]; rfl
            · rw [hext]; simp
            · have hlenb2 : r.1.length ≤ 2 + (target - 2).toNat := by
                simpa using hlenb
              show (r.1.length : ℤ) ≤ max 2 target
              omega
  · intro htl hstart hneck
    have h0 : (target - 2).toNat = 0 := by omega
    simp only [grow_arrow_strict_direction]
    rw [hstart, hneck, h0]
    simp [growTail]

unseal Rat.mul Rat.inv Rat.add Rat.sub in
/-- Witness for `grow_arrow_postconditions`: on an empty 3 x 3 grid with
seed state 7, growing down from the corner with target 3 yields the
column whose cells the theorem certifies free, and target 1 returns the
2-cell arrow with the state untouched. -/
theorem grow_arrow_postconditions_witness :
    (∀ c ∈ (GrownArrow.mk [((0 : ℤ), (0 : ℤ)), (0, 1), (0, 2)] Dir.down).cells,
      (Grid.mk 3 3 ∅ (fun _ => none)).is_valid_and_free c = true) ∧
    grow_arrow_strict_direction (0, 0) Dir.down 1 (Grid.mk 3 3 ∅ (fun _ => none)) 7 =
      some (some ⟨[(0, 0), (0, 1)], Dir.down⟩, 7) :=
  ⟨((grow_arrow_postconditions (0, 0) Dir.down 3 (Grid.mk 3 3 ∅ (fun _ => none)) 7).1
      ⟨[(0, 0), (0, 1), (0, 2)], Dir.down⟩ 1282168116 (by decide)).2.2.2.2.2.2.1,
   (grow_arrow_postconditions (0, 0) Dir.down 1 (Grid.mk 3 3 ∅ (fun _ => none)) 7).2
      (by decide) (by decide) (by decide)⟩

unseal Rat.mul Rat.inv Rat.add Rat.sub in
/-- C1: refutation of universal solvability.  `generate_level(11, 428)`
returns a 5×5 level with six arrows (`lvl11arrows`) whose arrows `a0`,
`a4`, `a5` block each other in a geometric cycle, so `get_full_solution`
stops after removing only `a1`, `a2`, `a3` — not a permutation of the
six arrow ids. -/
theorem generated_level_unsolvable :
    (generate_level 11 (some 428)).map
        (fun L => ((L.width, L.height), L.arrows.map GenArrow.core)) =
      some ((5, 5), lvl11arrows) ∧
    get_full_solution lvl11arrows 5 5 = ["a1", "a2", "a3"] ∧
    ¬ List.Perm ["a1", "a2", "a3"] (lvl11arrows.map (fun a => a.id)) :=
  ⟨by decide, by decide, by decide⟩

/-- C9 (amended): a move list that is not a permutation of the arrow
ids is always rejected up front, but the two up-front reasons — the
length message `Expected N moves, got M` and the set message `Move IDs
don't match arrow IDs` — carry no step index at all; the indexed
per-step reasons never fire for these defects. -/
theorem validate_nonperm_rejected_without_index (arrows : List Arrow)
    (moves : List String) (w h : ℤ)
    (hnd : (arrows.map (fun a => a.id)).Nodup)
    (hnp : ¬ List.Perm moves (arrows.map (fun a => a.id))) :
    (validate_moves_fast arrows moves w h).1 = false ∧
    ∃ r, (validate_moves_fast arrows moves w h).2 = some r ∧
      (r = VReason.expectedMoves (arrows.map (fun a => a.id)).toFinset.card
          moves.length ∨
        r = VReason.idsMismatch) ∧
      VReason.stepIndex r = none := by
  simp only [validate_moves_fast]
  by_cases hlen : moves.length ≠ (arrows.map (fun a => a.id)).toFinset.card
  · rw [if_pos hlen]
    exact ⟨rfl, _, rfl, Or.inl rfl, rfl⟩
  · rw [if_neg hlen]
    push_neg at hlen
    by_cases hset : moves.toFinset ≠ (arrows.map (fun a => a.id)).toFinset
    · rw [if_pos hset]
      exact ⟨rfl, _, rfl, Or.inr rfl, rfl⟩
    · push_neg at hset
      exfalso
      have hmnd : moves.Nodup := by
        have hsub := List.dedup_sublist moves
        have hlen2 : moves.dedup.length = moves.length := by
          rw [← List.card_toFinset, hset, List.toFinset_card_of_nodup hnd, hlen,
            List.toFinset_card_of_nodup hnd]
        rw [← List.dedup_eq_self]
        exact hsub.eq_of_length hlen2
      exact hnp (List.perm_of_nodup_nodup_toFinset_eq hmnd hnd hset)

/-- Witness for `validate_nonperm_rejected_without_index`: two arrows
`a`, `b` with the single move `b` — a wrong-length move list — is
rejected with the `Expected 2 moves, got 1` reason, which has no step
index. -/
theorem validate_nonperm_rejected_without_index_witness :
    (([⟨"a", [((0 : ℤ), (0 : ℤ))], .up⟩, ⟨"b", [(1, 0)], .up⟩] : List Arrow).map
        (fun a => a.id)).Nodup ∧
    ¬ List.Perm ["b"]
      (([⟨"a", [((0 : ℤ), (0 : ℤ))], .up⟩, ⟨"b", [(1, 0)], .up⟩] : List Arrow).map
        (fun a => a.id)) ∧
    ((validate_moves_fast [⟨"a", [((0 : ℤ), (0 : ℤ))], .up⟩, ⟨"b", [(1, 0)], .up⟩]
        ["b"] 2 1).1 = false ∧
      ∃ r, (validate_moves_fast [⟨"a", [((0 : ℤ), (0 : ℤ))], .up⟩,
          ⟨"b", [(1, 0)], .up⟩] ["b"] 2 1).2 = some r ∧
        (r = VReason.expectedMoves 2 1 ∨ r = VReason.idsMismatch) ∧
        VReason.stepIndex r = none) :=
  ⟨by decide, by decide,
    validate_nonperm_rejected_without_index
      [⟨"a", [((0 : ℤ), (0 : ℤ))], .up⟩, ⟨"b", [(1, 0)], .up⟩] ["b"] 2 1
      (by decide) (by decide)⟩

/-- Counterexample to C9 as stated: the duplicated move list
`["a", "a"]` against arrows `a`, `b` has the right length but is not a
permutation (a duplicate id), and the validator rejects it with the
`Move IDs don't match arrow IDs` reason, which carries no step index —
not with an indexed duplicate report. -/
theorem validate_nonperm_no_index_counterexample :
    ¬ List.Perm ["a", "a"]
      (([⟨"a", [((0 : ℤ), (0 : ℤ))], .up⟩, ⟨"b", [(1, 0)], .up⟩] : List Arrow).map
        (fun a => a.id)) ∧
    validate_moves_fast [⟨"a", [((0 : ℤ), (0 : ℤ))], .up⟩, ⟨"b", [(1, 0)], .up⟩]
        ["a", "a"] 2 1 = (false, some VReason.idsMismatch) ∧
    VReason.stepIndex VReason.idsMismatch = none := by
  refine ⟨by decide, by decide, rfl⟩

/-- Evaluating a keyed `Function.update` fold at a key written by none of
the folded items leaves the initial function. -/
theorem foldl_update_of_forall_ne {α β : Type} (k : α → String) (v : α → β) :
    ∀ (l : List α) (f0 : String → β) (x : String), (∀ a ∈ l, k a ≠ x) →
    (l.foldl (fun f a => Function.update f (k a) (v a)) f0) x = f0 x := by
  intro l
  induction l with
  | nil => intro f0 x _; rfl
  | cons b t ih =>
    intro f0 x hx
    simp only [List.foldl_cons]
    rw [ih _ x (fun a ha => hx a (List.mem_cons_of_mem b ha))]
    exact Function.update_noteq (Ne.symm (hx b (List.mem_cons_self b t))) _ _

/-- With pairwise-distinct keys, a keyed `Function.update` fold
evaluates at each item's key to that item's value. -/
theorem foldl_update_self {α β : Type} (k : α → String) (v : α → β) :
    ∀ (l : List α) (f0 : String → β) (a : α), a ∈ l → (l.map k).Nodup →
    (l.foldl (fun f a => Function.update f (k a) (v a)) f0) (k a) = v a := by
  intro l
  induction l with
  | nil => intro f0 a ha _; cases ha
  | cons b t ih =>
    intro f0 a ha hnd
    simp only [List.map_cons, List.nodup_cons] at hnd
    rcases List.mem_cons.mp ha with rfl | ha
    · simp only [List.foldl_cons]
      rw [foldl_update_of_forall_ne k v t _ (k a)
        (fun c hc hkc => hnd.1 (hkc ▸ List.mem_map_of_mem k hc))]
      exact Function.update_same _ _ _
    · simp only [List.foldl_cons]
      exact ih _ a ha hnd.2

/-- The inner loop of `build_cell_map`: writing one arrow's cells. -/
theorem cellsFold_eval (cells : List Cell) (i : String) :
    ∀ (m : Cell → Option String) (c : Cell),
    (cells.foldl (fun m2 c2 => Function.update m2 c2 (some i)) m) c =
      if c ∈ cells then some i else m c := by
  induction cells with
  | nil => intro m c; simp
  | cons d t ih =>
    intro m c
    simp only [List.foldl_cons]
    rw [ih]
    by_cases hc : c ∈ t
    · simp [hc]
    · by_cases hcd : c = d
      · subst hcd
        simp [hc, Function.update_same]
      · simp [hc, hcd, Function.update_noteq hcd]

/-- `build_cell_map` over one more trailing arrow: the new arrow's
cells win, everything else is unchanged. -/
theorem build_cell_map_append (l : List Arrow) (a : Arrow) (c : Cell) :
    build_cell_map (l ++ [a]) c =
      if c ∈ a.cells then some a.id else build_cell_map l c := by
  unfold build_cell_map
  rw [List.foldl_append]
  simp only [List.foldl_cons, List.foldl_nil]
  exact cellsFold_eval a.cells a.id _ c

/-- Every id stored in the cell map comes from an arrow of the list
that contains the cell. -/
theorem build_cell_map_some (c : Cell) (x : String) :
    ∀ (l : List Arrow), build_cell_map l c = some x →
    ∃ b ∈ l, b.id = x ∧ c ∈ b.cells := by
  intro l
  induction l using List.reverseRecOn with
  | nil => intro h; cases h
  | append_singleton t a ih =>
    intro h
    rw [build_cell_map_append] at h
    by_cases hc : c ∈ a.cells
    · rw [if_pos hc] at h
      exact ⟨a, by simp, Option.some_inj.mp h, hc⟩
    · rw [if_neg hc] at h
      obtain ⟨b, hb, hbx, hbc⟩ := ih h
      exact ⟨b, by simp [hb], hbx, hbc⟩

/-- A cell no arrow contains is absent from the cell map. -/
theorem build_cell_map_eq_none (c : Cell) :
    ∀ (l : List Arrow), (∀ b ∈ l, c ∉ b.cells) → build_cell_map l c = none := by
  intro l
  induction l using List.reverseRecOn with
  | nil => intro _; rfl
  | append_singleton t a ih =>
    intro h
    rw [build_cell_map_append,
      if_neg (h a (by simp))]
    exact ih (fun b hb => h b (by simp [hb]))

/-- When only arrows of one id contain a cell, the cell map stores that
id. -/
theorem build_cell_map_unique (c : Cell) (b : Arrow) :
    ∀ (l : List Arrow), b ∈ l → c ∈ b.cells →
    (∀ b' ∈ l, b'.id ≠ b.id → c ∉ b'.cells) →
    build_cell_map l c = some b.id := by
  intro l
  induction l using List.reverseRecOn with
  | nil => intro hb _ _; cases hb
  | append_singleton t a ih =>
    intro hb hc huniq
    rw [build_cell_map_append]
    by_cases hca : c ∈ a.cells
    · rw [if_pos hca]
      by_cases hid : a.id = b.id
      · rw [hid]
      · exact absurd hca (huniq a (by simp) hid)
    · rw [if_neg hca]
      rcases List.mem_append.mp hb with hb | hb
      · exact ih hb hc (fun b' hb' => huniq b' (by simp [hb']))
      · simp only [List.mem_singleton] at hb
        subst hb
        exact absurd hc hca

/-- Filtering the arrow list with a predicate that keeps every arrow of
the stored id leaves that cell's map entry unchanged: the global last
writer survives and no later writer exists. -/
theorem build_cell_map_filter (c : Cell) (x : String) (P : Arrow → Bool) :
    ∀ (l : List Arrow), build_cell_map l c = some x →
    (∀ b ∈ l, b.id = x → P b = true) →
    build_cell_map (l.filter P) c = some x := by
  intro l
  induction l using List.reverseRecOn with
  | nil => intro h _; cases h
  | append_singleton t a ih =>
    intro h hP
    rw [build_cell_map_append] at h
    rw [List.filter_append]
    by_cases hc : c ∈ a.cells
    · rw [if_pos hc] at h
      have hx : a.id = x := Option.some_inj.mp h
      have hPa : P a = true := hP a (by simp) hx
      simp only [List.filter_cons, hPa, if_true, List.filter_nil]
      rw [build_cell_map_append, if_pos hc, hx]
    · rw [if_neg hc] at h
      have ih2 := ih h (fun b hb => hP b (by simp [hb]))
      by_cases hPa : P a = true
      · simp only [List.filter_cons, hPa, if_true, List.filter_nil]
        rw [build_cell_map_append, if_neg hc]
        exact ih2
      · have hPa2 : P a = false := by
          cases hP2 : P a
          · rfl
          · exact absurd hP2 hPa
        simp only [List.filter_cons, hPa2, Bool.false_eq_true, if_false,
          List.filter_nil, List.append_nil]
        exact ih2

/-- Membership in the ray-walk blocker fold of
`build_dependency_graph`. -/
theorem mem_bsFold (cm : Cell → Option String) (aid : String)
    (own : List Cell) (x : String) :
    ∀ (ray : List Cell) (acc : Finset String),
    (x ∈ ray.foldl (fun acc c =>
        match cm c with
        | some other => if other ≠ aid ∧ c ∉ own then insert other acc else acc
        | none => acc) acc ↔
      x ∈ acc ∨ ∃ c ∈ ray, cm c = some x ∧ x ≠ aid ∧ c ∉ own) := by
  intro ray
  induction ray with
  | nil => intro acc; simp
  | cons c t ih =>
    intro acc
    simp only [List.foldl_cons]
    rw [ih]
    constructor
    · rintro (hx | ⟨c', hc', hrest⟩)
      · rcases hcm : cm c with _ | o
        · rw [hcm] at hx
          exact Or.inl hx
        · rw [hcm] at hx
          replace hx : x ∈ (if o ≠ aid ∧ c ∉ own then insert o acc else acc) := hx
          by_cases hcond : o ≠ aid ∧ c ∉ own
          · rw [if_pos hcond] at hx
            rcases Finset.mem_insert.mp hx with rfl | hx
            · exact Or.inr ⟨c, List.mem_cons_self c t, hcm, hcond⟩
            · exact Or.inl hx
          · rw [if_neg hcond] at hx
            exact Or.inl hx
      · exact Or.inr ⟨c', List.mem_cons_of_mem c hc', hrest⟩
    · rintro (hx | ⟨c', hc', hcm', hxa, hco⟩)
      · left
        rcases hcm : cm c with _ | o
        · exact hx
        · show x ∈ (if o ≠ aid ∧ c ∉ own then insert o acc else acc)
          by_cases hcond : o ≠ aid ∧ c ∉ own
          · rw [if_pos hcond]
            exact Finset.mem_insert_of_mem hx
          · rw [if_neg hcond]
            exact hx
      · rcases List.mem_cons.mp hc' with rfl | hc'
        · left
          rw [hcm']
          show x ∈ (if x ≠ aid ∧ c' ∉ own then insert x acc else acc)
          rw [if_pos ⟨hxa, hco⟩]
          exact Finset.mem_insert_self x acc
        · exact Or.inr ⟨c', hc', hcm', hxa, hco⟩

/-- The blocker set of `_build_dependency_graph` for an arrow, in terms
of the cell map: the ids stored on the arrow's forward ray outside its
own cells. -/
theorem mem_bof_ray (arrows : List Arrow) (w h : ℤ)
    (hnd : (arrows.map (fun a => a.id)).Nodup)
    (a : Arrow) (ha : a ∈ arrows) (x : String) :
    x ∈ (build_dependency_graph arrows w h).1 a.id ↔
      ∃ c ∈ rayCells (get_arrow_head a) a.direction w h,
        build_cell_map arrows c = some x ∧ x ≠ a.id ∧ c ∉ a.cells := by
  have harrow_cells :
      (arrows.foldl (fun f a2 => Function.update f a2.id a2.cells)
        (fun _ => ([] : List Cell))) a.id = a.cells :=
    foldl_update_self (fun a2 => a2.id) (fun a2 => a2.cells) arrows _ a ha hnd
  simp only [build_dependency_graph]
  rw [foldl_update_self (fun a2 => a2.id) _ arrows _ a ha hnd]
  rw [harrow_cells]
  have h2 := mem_bsFold (build_cell_map arrows) a.id a.cells x
    (rayCells (a.cells.headD (0, 0)) a.direction w h) ∅
  simp only [Finset.not_mem_empty, false_or] at h2
  exact h2

/-- Under distinct ids and pairwise-disjoint cells, the validator's
blocker set is exactly the geometric blocking relation. -/
theorem mem_bof_iff (arrows : List Arrow) (w h : ℤ)
    (hnd : (arrows.map (fun a => a.id)).Nodup)
    (hdisj : ∀ a ∈ arrows, ∀ b ∈ arrows, a.id ≠ b.id → ∀ c ∈ a.cells, c ∉ b.cells)
    (a : Arrow) (ha : a ∈ arrows) (x : String) :
    x ∈ (build_dependency_graph arrows w h).1 a.id ↔
      ∃ b ∈ arrows, b.id = x ∧ b.id ≠ a.id ∧ blocksSpec w h b a := by
  rw [mem_bof_ray arrows w h hnd a ha x]
  constructor
  · rintro ⟨c, hc, hcm, hxa, hcow⟩
    obtain ⟨b, hb, hbid, hbc⟩ := build_cell_map_some c x arrows hcm
    exact ⟨b, hb, hbid, by rw [hbid]; exact hxa, ⟨c, hbc, hc⟩⟩
  · rintro ⟨b, hb, hbid, hbne, hbl⟩
    obtain ⟨c, hbc, hc⟩ := hbl
    refine ⟨c, hc, ?_, by rw [← hbid]; exact hbne, ?_⟩
    · rw [← hbid]
      exact build_cell_map_unique c b arrows hb hbc
        (fun b' hb' hbid' => hdisj b hb b' hb' (Ne.symm hbid') c hbc)
    · exact hdisj b hb a ha hbne c hbc

/-- The counter-decrementing loop of `validate_moves_fast` accepts
exactly when, at every step, all live blockers of the moved id were
already removed. -/
theorem vloop_accepts_iff (all_ids : Finset String)
    (bof : String → Finset String) (dof : String → Finset String)
    (hdof : ∀ b a, a ∈ all_ids → (a ∈ dof b ↔ b ∈ bof a)) :
    ∀ (rest : List String) (removed : Finset String)
      (counts : String → ℕ) (step : ℕ),
    (∀ m ∈ rest, m ∈ all_ids) →
    rest.Nodup →
    (∀ m ∈ rest, m ∉ removed) →
    (∀ aid ∈ all_ids, aid ∉ removed →
      counts aid = ((bof aid ∩ all_ids) \ removed).card) →
    removed.card + rest.length = all_ids.card →
    (vloop all_ids dof rest step removed counts = (true, none) ↔
      ∀ (i : ℕ) (mid : String), rest.get? i = some mid →
        (bof mid ∩ all_ids) ⊆ removed ∪ (rest.take i).toFinset) := by
  intro rest
  induction rest with
  | nil =>
    intro removed counts step _ _ _ _ hcard
    simp only [vloop]
    rw [if_neg (by simp at hcard; omega)]
    simp
  | cons mid rest ih =>
    intro removed counts step hsub hnodup hre hcounts hcard
    simp only [vloop]
    rw [if_neg (by simpa using hre mid (List.mem_cons_self mid rest))]
    rw [if_neg (by simpa using hsub mid (List.mem_cons_self mid rest))]
    have hmidall : mid ∈ all_ids := hsub mid (List.mem_cons_self mid rest)
    have hmidrem : mid ∉ removed := hre mid (List.mem_cons_self mid rest)
    have hcnt : counts mid = ((bof mid ∩ all_ids) \ removed).card :=
      hcounts mid hmidall hmidrem
    by_cases hblocked : 0 < counts mid
    · rw [if_pos hblocked]
      constructor
      · intro h; cases h
      · intro h
        exfalso
        have h0 := h 0 mid rfl
        simp only [List.take_zero, List.toFinset_nil, Finset.union_empty] at h0
        have : ((bof mid ∩ all_ids) \ removed) = ∅ :=
          Finset.sdiff_eq_empty_iff_subset.mpr h0
        rw [hcnt, this] at hblocked
        simp at hblocked
    · rw [if_neg hblocked]
      have hclear : (bof mid ∩ all_ids) ⊆ removed := by
        have : ((bof mid ∩ all_ids) \ removed).card = 0 := by omega
        exact Finset.sdiff_eq_empty_iff_subset.mp
          (Finset.card_eq_zero.mp this)
      simp only [List.nodup_cons] at hnodup
      rw [ih (insert mid removed)
        (fun a => if a ∈ dof mid ∧ a ∉ insert mid removed then counts a - 1
          else counts a)
        (step + 1)
        (fun m hm => hsub m (List.mem_cons_of_mem mid hm))
        hnodup.2
        (fun m hm => by
          simp only [Finset.mem_insert, not_or]
          exact ⟨fun he => hnodup.1 (he ▸ hm),
            hre m (List.mem_cons_of_mem mid hm)⟩)
        (fun aid haid haidrem => by
          simp only [Finset.mem_insert, not_or] at haidrem
          show (if aid ∈ dof mid ∧ aid ∉ insert mid removed then counts aid - 1
              else counts aid) = ((bof aid ∩ all_ids) \ insert mid removed).card
          by_cases hdep : mid ∈ bof aid
          · rw [if_pos ⟨(hdof mid aid haid).mpr hdep, by
              simp only [Finset.mem_insert, not_or]; exact haidrem⟩]
            rw [hcounts aid haid haidrem.2]
            have hmidin : mid ∈ (bof aid ∩ all_ids) \ removed := by
              simp only [Finset.mem_sdiff, Finset.mem_inter]
              exact ⟨⟨hdep, hmidall⟩, hmidrem⟩
            rw [Finset.sdiff_insert, Finset.card_erase_of_mem hmidin]
          · rw [if_neg (by
              intro hand
              exact hdep ((hdof mid aid haid).mp hand.1))]
            rw [hcounts aid haid haidrem.2]
            congr 1
            rw [Finset.sdiff_insert,
              Finset.erase_eq_of_not_mem (by
                simp only [Finset.mem_sdiff, Finset.mem_inter, not_and]
                intro hin _
                exact absurd hin.1 hdep)])
        (by
          rw [Finset.card_insert_of_not_mem hmidrem]
          simp only [List.length_cons] at hcard
          omega)]
      constructor
      · intro h i mid2 hget
        match i, hget with
        | 0, hget =>
          have heq : mid = mid2 := by simpa using hget
          subst heq
          simpa using hclear
        | i + 1, hget =>
          have h2 := h i mid2 hget
          refine h2.trans ?_
          intro y hy
          rcases Finset.mem_union.mp hy with hy | hy
          · rcases Finset.mem_insert.mp hy with rfl | hy
            · simp [List.take_succ_cons]
            · exact Finset.mem_union_left _ hy
          · apply Finset.mem_union_right
            simp only [List.take_succ_cons, List.toFinset_cons, Finset.mem_insert]
            exact Or.inr hy
      · intro h i mid2 hget
        have h2 := h (i + 1) mid2 hget
        refine h2.trans ?_
        intro y hy
        rcases Finset.mem_union.mp hy with hy | hy
        · exact Finset.mem_union_left _ (Finset.mem_insert_of_mem hy)
        · simp only [List.take_succ_cons, List.toFinset_cons, Finset.mem_insert] at hy
          rcases hy with rfl | hy
          · exact Finset.mem_union_left _ (Finset.mem_insert_self _ _)
          · exact Finset.mem_union_right _ hy

/-- The reverse index of `_build_dependency_graph` inverts the blocker
sets over the arrow-id universe. -/
theorem mem_bdg2 (arrows : List Arrow) (w h : ℤ) (b a : String) :
    a ∈ (build_dependency_graph arrows w h).2 b ↔
      a ∈ (arrows.map (fun x => x.id)).toFinset ∧
        b ∈ (build_dependency_graph arrows w h).1 a := by
  have hdef : (build_dependency_graph arrows w h).2 b =
      Finset.filter (fun a2 => b ∈ (build_dependency_graph arrows w h).1 a2)
        (arrows.map (fun x => x.id)).toFinset := rfl
  rw [hdef, Finset.mem_filter]

/-- `validate_moves_fast` accepts exactly the permutations whose every
step has all its graph-blockers among the earlier moves. -/
theorem validate_accepts_iff_clear (arrows : List Arrow) (moves : List String)
    (w h : ℤ) (hnd : (arrows.map (fun a => a.id)).Nodup) :
    validate_moves_fast arrows moves w h = (true, none) ↔
      (List.Perm moves (arrows.map (fun a => a.id)) ∧
        ∀ (i : ℕ) (mid : String), moves.get? i = some mid →
          ((build_dependency_graph arrows w h).1 mid ∩
            (arrows.map (fun a => a.id)).toFinset) ⊆ (moves.take i).toFinset) := by
  simp only [validate_moves_fast]
  by_cases hlen : moves.length ≠ (List.map (fun a => a.id) arrows).toFinset.card
  · rw [if_pos hlen]
    constructor
    · intro hcontra
      exact absurd (congrArg Prod.fst hcontra) (by simp)
    · rintro ⟨hperm, -⟩
      exact absurd (by rw [hperm.length_eq, List.toFinset_card_of_nodup hnd]) hlen
  · rw [if_neg hlen]
    push_neg at hlen
    by_cases hset : moves.toFinset ≠ (List.map (fun a => a.id) arrows).toFinset
    · rw [if_pos hset]
      constructor
      · intro hcontra
        exact absurd (congrArg Prod.fst hcontra) (by simp)
      · rintro ⟨hperm, -⟩
        exact absurd (List.toFinset_eq_of_perm _ _ hperm) hset
    · rw [if_neg hset]
      push_neg at hset
      have hmnd : moves.Nodup := by
        have hsub2 := List.dedup_sublist moves
        have hlen2 : moves.dedup.length = moves.length := by
          rw [← List.card_toFinset, hset, List.toFinset_card_of_nodup hnd, hlen,
            List.toFinset_card_of_nodup hnd]
        rw [← List.dedup_eq_self]
        exact hsub2.eq_of_length hlen2
      have hperm : List.Perm moves (arrows.map (fun a => a.id)) :=
        List.perm_of_nodup_nodup_toFinset_eq hmnd hnd hset
      rw [vloop_accepts_iff (arrows.map (fun a => a.id)).toFinset
        (build_dependency_graph arrows w h).1
        (build_dependency_graph arrows w h).2
        (fun b a ha => by
          rw [mem_bdg2]
          exact ⟨fun hm => hm.2, fun hb => ⟨ha, hb⟩⟩)
        moves ∅
        (fun aid => ((build_dependency_graph arrows w h).1 aid ∩
          (List.map (fun a => a.id) arrows).toFinset).card)
        0
        (fun m hm => by rw [← hset]; exact List.mem_toFinset.mpr hm)
        hmnd
        (fun m _ => Finset.not_mem_empty m)
        (fun aid _ _ => by rw [Finset.sdiff_empty])
        (by simp [hlen])]
      constructor
      · intro hclr
        refine ⟨hperm, fun i mid hget => ?_⟩
        simpa using hclr i mid hget
      · rintro ⟨-, hclr⟩
        intro i mid hget
        simpa using hclr i mid hget

/-- C2 (amended): for arrows with pairwise-distinct ids, nonempty cell
lists and pairwise-disjoint cells, `validate_moves_fast` returns
`(true, none)` iff the move list is a permutation of the arrow ids and
each moved arrow has zero still-present geometric blockers at the moment
it is removed.  (Without disjoint cells the dict `cell_map` only keeps
the last writer of a shared cell and the validator diverges from the
geometric relation.) -/
theorem validate_moves_fast_iff (arrows : List Arrow) (moves : List String)
    (w h : ℤ)
    (hnd : (arrows.map (fun a => a.id)).Nodup)
    (hne : ∀ a ∈ arrows, a.cells ≠ [])
    (hdisj : ∀ a ∈ arrows, ∀ b ∈ arrows, a.id ≠ b.id → ∀ c ∈ a.cells, c ∉ b.cells) :
    validate_moves_fast arrows moves w h = (true, none) ↔
      (List.Perm moves (arrows.map (fun a => a.id)) ∧
        stepOkSpec arrows w h moves) := by
  clear hne
  rw [validate_accepts_iff_clear arrows moves w h hnd]
  constructor
  · rintro ⟨hperm, hclr⟩
    refine ⟨hperm, ?_⟩
    intro i hi a ha hget b hb hbne hbtake hbl
    have hsub := hclr i a.id hget
    have hbin : b.id ∈ (build_dependency_graph arrows w h).1 a.id :=
      (mem_bof_iff arrows w h hnd hdisj a ha b.id).mpr ⟨b, hb, rfl, hbne, hbl⟩
    have hmem : b.id ∈ (moves.take i).toFinset :=
      hsub (Finset.mem_inter.mpr
        ⟨hbin, List.mem_toFinset.mpr (List.mem_map_of_mem _ hb)⟩)
    exact hbtake (List.mem_toFinset.mp hmem)
  · rintro ⟨hperm, hok⟩
    refine ⟨hperm, ?_⟩
    intro i mid hget x hx
    rcases Finset.mem_inter.mp hx with ⟨hx1, hx2⟩
    have hmidmem : mid ∈ arrows.map (fun a => a.id) :=
      hperm.subset (List.get?_mem hget)
    obtain ⟨a, ha, haid⟩ := List.mem_map.mp hmidmem
    subst haid
    obtain ⟨b, hb, hbid, hbne, hbl⟩ :=
      (mem_bof_iff arrows w h hnd hdisj a ha x).mp hx1
    have hi : i < moves.length := by
      by_contra hge
      push_neg at hge
      rw [List.get?_eq_none.mpr hge] at hget
      cases hget
    by_contra hnotin
    exact hok i hi a ha hget b hb hbne
      (fun hmem => hnotin (by rw [← hbid]; exact List.mem_toFinset.mpr hmem)) hbl

/-- Witness for `validate_moves_fast_iff`: two right-pointing arrows in
a row; removing the front one first is a stepwise-unblocked permutation
and the validator accepts it. -/
theorem validate_moves_fast_iff_witness :
    ((([⟨"A", [((0 : ℤ), (0 : ℤ))], .right⟩, ⟨"B", [(1, 0)], .right⟩] :
        List Arrow).map (fun a => a.id)).Nodup ∧
      (∀ a ∈ ([⟨"A", [((0 : ℤ), (0 : ℤ))], .right⟩, ⟨"B", [(1, 0)], .right⟩] :
        List Arrow), a.cells ≠ []) ∧
      (∀ a ∈ ([⟨"A", [((0 : ℤ), (0 : ℤ))], .right⟩, ⟨"B", [(1, 0)], .right⟩] :
          List Arrow),
        ∀ b ∈ ([⟨"A", [((0 : ℤ), (0 : ℤ))], .right⟩, ⟨"B", [(1, 0)], .right⟩] :
          List Arrow), a.id ≠ b.id → ∀ c ∈ a.cells, c ∉ b.cells)) ∧
    validate_moves_fast
      [⟨"A", [((0 : ℤ), (0 : ℤ))], .right⟩, ⟨"B", [(1, 0)], .right⟩]
      ["B", "A"] 2 1 = (true, none) :=
  ⟨⟨by decide, by decide, by decide⟩,
    (validate_moves_fast_iff
      [⟨"A", [((0 : ℤ), (0 : ℤ))], .right⟩, ⟨"B", [(1, 0)], .right⟩]
      ["B", "A"] 2 1 (by decide) (by decide) (by decide)).mpr
      ⟨by decide, by decide⟩⟩

/-- Counterexample to C2 as stated: with the overlapping arrows `A` and
`B` both on cell `(1, 0)` and `C` pointing right at them on a 3×1 board,
the validator accepts the order `B, C, A` — the cell map only records
`B` on the shared cell, so removing `B` alone unblocks `C` — although
`C` is moved while the still-present arrow `A` occupies a cell on its
forward ray. -/
theorem validate_moves_fast_iff_counterexample :
    validate_moves_fast
      [⟨"A", [((1 : ℤ), (0 : ℤ))], .up⟩, ⟨"B", [(1, 0)], .up⟩,
        ⟨"C", [(0, 0)], .right⟩]
      ["B", "C", "A"] 3 1 = (true, none) ∧
    List.Perm ["B", "C", "A"]
      (([⟨"A", [((1 : ℤ), (0 : ℤ))], .up⟩, ⟨"B", [(1, 0)], .up⟩,
        ⟨"C", [(0, 0)], .right⟩] : List Arrow).map (fun a => a.id)) ∧
    ¬ stepOkSpec
      [⟨"A", [((1 : ℤ), (0 : ℤ))], .up⟩, ⟨"B", [(1, 0)], .up⟩,
        ⟨"C", [(0, 0)], .right⟩]
      3 1 ["B", "C", "A"] :=
  ⟨by decide, by decide, by decide⟩

/-- Every id emitted by the reference solver names an arrow of the
remaining list it was drawn from. -/
theorem fullSolutionAux_subset (w h : ℤ) :
    ∀ (fuel : ℕ) (R : List Arrow) (x : String),
    x ∈ fullSolutionAux w h fuel R → ∃ a ∈ R, a.id = x := by
  intro fuel
  induction fuel with
  | zero => intro R x hx; cases hx
  | succ f ih =>
    intro R x hx
    simp only [fullSolutionAux] at hx
    by_cases hemp : R.isEmpty
    · rw [if_pos hemp] at hx
      cases hx
    · rw [if_neg hemp] at hx
      rcases hfr : get_free_arrows R w h with _ | ⟨fr, tail⟩
      · rw [hfr] at hx
        cases hx
      · rw [hfr] at hx
        rcases List.mem_cons.mp hx with rfl | hx
        · have hfrR : fr ∈ R := by
            have : fr ∈ get_free_arrows R w h := by
              rw [hfr]; exact List.mem_cons_self fr tail
            exact List.mem_of_mem_filter this
          exact ⟨fr, hfrR, rfl⟩
        · obtain ⟨a, ha, hax⟩ := ih _ x hx
          exact ⟨a, List.mem_of_mem_filter ha, hax⟩

/-- The reference solver never emits an id twice. -/
theorem fullSolutionAux_nodup (w h : ℤ) :
    ∀ (fuel : ℕ) (R : List Arrow), (fullSolutionAux w h fuel R).Nodup := by
  intro fuel
  induction fuel with
  | zero => intro R; exact List.nodup_nil
  | succ f ih =>
    intro R
    simp only [fullSolutionAux]
    by_cases hemp : R.isEmpty
    · rw [if_pos hemp]
      exact List.nodup_nil
    · rw [if_neg hemp]
      rcases hfr : get_free_arrows R w h with _ | ⟨fr, tail⟩
      · exact List.nodup_nil
      · refine List.nodup_cons.mpr ⟨?_, ih _⟩
        intro hmem
        obtain ⟨a, ha, hax⟩ := fullSolutionAux_subset w h f _ fr.id hmem
        have := List.of_mem_filter ha
        simp only [decide_eq_true_eq] at this
        exact this hax

/-- Freeness in `get_free_arrows`: no ray cell of a free arrow is owned
by a different id in the cell map of the remaining arrows. -/
theorem mem_get_free_arrows (R : List Arrow) (w h : ℤ) (f : Arrow)
    (hf : f ∈ get_free_arrows R w h) :
    f ∈ R ∧ ∀ c ∈ rayCells (get_arrow_head f) f.direction w h,
      ∀ o, build_cell_map R c = some o → o = f.id := by
  unfold get_free_arrows at hf
  obtain ⟨hfR, hpred⟩ := List.mem_filter.mp hf
  refine ⟨hfR, ?_⟩
  intro c hc o ho
  simp only [Bool.not_eq_true', List.any_eq_false] at hpred
  have h3 := hpred c (by
    unfold get_path_cells
    exact hc)
  rw [ho] at h3
  simpa using h3

/-- Each step of the reference solver only removes an arrow whose
graph-blockers were all removed at earlier steps. -/
theorem fullSolution_clear (arrows : List Arrow) (w h : ℤ)
    (hnd : (arrows.map (fun a => a.id)).Nodup) :
    ∀ (fuel : ℕ) (picked : Finset String) (R : List Arrow),
    R = arrows.filter (fun a => decide (a.id ∉ picked)) →
    ∀ (i : ℕ) (mid : String),
      (fullSolutionAux w h fuel R).get? i = some mid →
      ((build_dependency_graph arrows w h).1 mid ∩
        (arrows.map (fun a => a.id)).toFinset) ⊆
        picked ∪ ((fullSolutionAux w h fuel R).take i).toFinset := by
  intro fuel
  induction fuel with
  | zero => intro picked R _ i mid hget; cases hget
  | succ f ih =>
    intro picked R hR i mid hget
    simp only [fullSolutionAux] at hget ⊢
    by_cases hemp : R.isEmpty
    · rw [if_pos hemp] at hget
      cases hget
    · rw [if_neg hemp] at hget ⊢
      rcases hfr : get_free_arrows R w h with _ | ⟨fr, tail⟩
      · rw [hfr] at hget
        exact absurd hget (by cases i <;> exact fun hc => by cases hc)
      · rw [hfr] at hget
        obtain ⟨hfrR, hfree⟩ := mem_get_free_arrows R w h fr (by
          rw [hfr]; exact List.mem_cons_self fr tail)
        have hfrarrows : fr ∈ arrows := List.mem_of_mem_filter (hR ▸ hfrR)
        match i, hget with
        | 0, hget =>
          replace hget : some fr.id = some mid := hget
          have heq : fr.id = mid := Option.some_inj.mp hget
          subst heq
          intro x hx
          rcases Finset.mem_inter.mp hx with ⟨hx1, hx2⟩
          obtain ⟨c, hc, hcm, hxne, -⟩ :=
            (mem_bof_ray arrows w h hnd fr hfrarrows x).mp hx1
          simp only [Finset.mem_union]
          left
          by_contra hxpicked
          have hcmR : build_cell_map R c = some x := by
            rw [hR]
            exact build_cell_map_filter c x _ arrows hcm
              (fun b _ hbid => by
                simp only [decide_eq_true_eq]
                rw [hbid]
                exact hxpicked)
          exact hxne (hfree c hc x hcmR)
        | i + 1, hget =>
          replace hget : (fullSolutionAux w h f
              (R.filter (fun a => decide (a.id ≠ fr.id)))).get? i = some mid := hget
          show _ ⊆ picked ∪ ((fr.id :: fullSolutionAux w h f
              (R.filter (fun a => decide (a.id ≠ fr.id)))).take (i + 1)).toFinset
          have hR2 : R.filter (fun a => decide (a.id ≠ fr.id)) =
              arrows.filter (fun a => decide (a.id ∉ insert fr.id picked)) := by
            rw [hR, List.filter_filter]
            refine List.filter_congr ?_
            intro a _
            by_cases h1 : a.id = fr.id <;> by_cases h2 : a.id ∈ picked <;>
              simp [h1, h2, Finset.mem_insert]
          have h2 := ih (insert fr.id picked) _ hR2 i mid hget
          refine h2.trans ?_
          intro y hy
          rcases Finset.mem_union.mp hy with hy | hy
          · rcases Finset.mem_insert.mp hy with rfl | hy
            · simp [List.take_succ_cons]
            · exact Finset.mem_union_left _ hy
          · apply Finset.mem_union_right
            simp only [List.take_succ_cons, List.toFinset_cons, Finset.mem_insert]
            exact Or.inr hy

/-- C4: whenever the reference solver's output is a permutation of all
arrow ids, the counter-decrementing validator accepts it: every step of
`get_full_solution` removes an arrow all of whose graph-blockers were
removed at earlier steps. -/
theorem full_solution_validates (arrows : List Arrow) (w h : ℤ)
    (hperm : List.Perm (get_full_solution arrows w h)
      (arrows.map (fun a => a.id))) :
    validate_moves_fast arrows (get_full_solution arrows w h) w h =
      (true, none) := by
  have hsolnd : (get_full_solution arrows w h).Nodup :=
    fullSolutionAux_nodup w h (2 * arrows.length) arrows
  have hnd : (arrows.map (fun a => a.id)).Nodup := hperm.nodup hsolnd
  rw [validate_accepts_iff_clear arrows _ w h hnd]
  refine ⟨hperm, ?_⟩
  intro i mid hget
  have hfilter : arrows = arrows.filter
      (fun a => decide (a.id ∉ (∅ : Finset String))) :=
    (List.filter_eq_self.mpr (fun a _ => by simp)).symm
  have hclr := fullSolution_clear arrows w h hnd (2 * arrows.length) ∅ arrows
    hfilter i mid hget
  simpa using hclr

/-- Witness for `full_solution_validates`: on the two-arrow row the
solver returns the permutation `B, A`, and the validator accepts it. -/
theorem full_solution_validates_witness :
    List.Perm
      (get_full_solution
        [⟨"A", [((0 : ℤ), (0 : ℤ))], .right⟩, ⟨"B", [(1, 0)], .right⟩] 2 1)
      (([⟨"A", [((0 : ℤ), (0 : ℤ))], .right⟩, ⟨"B", [(1, 0)], .right⟩] :
        List Arrow).map (fun a => a.id)) ∧
    validate_moves_fast
      [⟨"A", [((0 : ℤ), (0 : ℤ))], .right⟩, ⟨"B", [(1, 0)], .right⟩]
      (get_full_solution
        [⟨"A", [((0 : ℤ), (0 : ℤ))], .right⟩, ⟨"B", [(1, 0)], .right⟩] 2 1)
      2 1 = (true, none) :=
  ⟨by decide,
    full_solution_validates
      [⟨"A", [((0 : ℤ), (0 : ℤ))], .right⟩, ⟨"B", [(1, 0)], .right⟩] 2 1
      (by decide)⟩

/-- Marking a list of cells occupied changes neither grid dimension. -/
theorem markFold_dims (cells : List Cell) (aid : String) :
    ∀ g0 : Grid,
    ((cells.foldl (fun g c => g.mark_occupied c aid) g0).width = g0.width ∧
      (cells.foldl (fun g c => g.mark_occupied c aid) g0).height = g0.height) := by
  induction cells with
  | nil => intro g0; exact ⟨rfl, rfl⟩
  | cons c t ih =>
    intro g0
    simp only [List.foldl_cons]
    exact ih _

/-- The occupied set after marking a list of cells. -/
theorem markFold_occupied (aid : String) :
    ∀ (cells : List Cell) (g0 : Grid) (c' : Cell),
    (c' ∈ (cells.foldl (fun g c => g.mark_occupied c aid) g0).occupied ↔
      c' ∈ g0.occupied ∨ c' ∈ cells) := by
  intro cells
  induction cells with
  | nil => intro g0 c'; simp
  | cons c t ih =>
    intro g0 c'
    simp only [List.foldl_cons]
    rw [ih]
    simp only [Grid.mark_occupied, Finset.mem_insert, List.mem_cons]
    tauto

/-- Whenever the grower returns an arrow, its cells are duplicate-free
and were all valid and free in the passed grid. -/
theorem grow_cells_ok (start : Cell) (direction : Dir) (target : ℤ)
    (grid : Grid) (s : ℤ) (ga : GrownArrow) (s2 : ℤ)
    (hrun : grow_arrow_strict_direction start direction target grid s =
      some (some ga, s2)) :
    ga.cells.Nodup ∧ ∀ c ∈ ga.cells, grid.is_valid_and_free c = true := by
  unfold grow_arrow_strict_direction at hrun
  rcases hstart : grid.is_valid_and_free start with _ | _
  · rw [hstart] at hrun
    simp only [Bool.not_false, if_true] at hrun
    cases hrun
  · rw [hstart] at hrun
    simp only [Bool.not_true, Bool.false_eq_true, if_false] at hrun
    rcases hneck : grid.is_valid_and_free (move_in_direction start direction)
        with _ | _
    · rw [hneck] at hrun
      simp only [Bool.not_false, if_true] at hrun
      cases hrun
    · rw [hneck] at hrun
      simp only [Bool.not_true, Bool.false_eq_true, if_false,
        Option.bind_eq_bind] at hrun
      rcases hgt : growTail grid target (target - 2).toNat
          [start, move_in_direction start direction]
          (move_in_direction start direction) direction s with _ | r
      · rw [hgt] at hrun
        cases hrun
      · rw [hgt] at hrun
        simp only [Option.some_bind] at hrun
        by_cases hl2 : r.1.length < 2
        · rw [if_pos hl2] at hrun
          cases hrun
        · rw [if_neg hl2] at hrun
          have hga : ga = ⟨r.1, direction⟩ := by
            injection hrun with h1
            injection h1 with h2 h3
            simp_all
          subst hga
          have hnd0 : ([start, move_in_direction start direction] :
              List Cell).Nodup := by
            simp [List.nodup_cons]
            exact (move_ne start direction).symm
          have hfree0 : ∀ c ∈ ([start, move_in_direction start direction] :
              List Cell), grid.is_valid_and_free c = true := by
            intro c hc
            simp only [List.mem_cons, List.not_mem_nil, or_false] at hc
            rcases hc with rfl | rfl
            · exact hstart
            · exact hneck
          have hchain0 : List.Chain'
              (fun a b => (a.1 - b.1).natAbs + (a.2 - b.2).natAbs = 1)
              [start, move_in_direction start direction] := by
            simp [List.chain'_cons]
            exact move_adjacent start direction
          have hlast0 : ([start, move_in_direction start direction] :
              List Cell).getLast? = some (move_in_direction start direction) := by
            simp
          obtain ⟨-, -, hnd, hfree, -⟩ :=
            growTail_post grid target (target - 2).toNat
              [start, move_in_direction start direction]
              (move_in_direction start direction) direction s r hgt
              hnd0 hfree0 hchain0 hlast0
          exact ⟨hnd, hfree⟩

/-- Committing a freshly grown arrow preserves the generation
invariant. -/
theorem commitArrow_inv (w h : ℤ) (st : GenState) (arrow : Arrow)
    (blockers : List String) (s2 : ℤ) (hinv : genInv w h st)
    (hnd : arrow.cells.Nodup)
    (hfree : ∀ c ∈ arrow.cells, st.grid.is_valid_and_free c = true) :
    genInv w h (commitArrow st arrow blockers s2) := by
  obtain ⟨hw, hh, ⟨heach, hpair⟩, hocc⟩ := hinv
  have hbounds : ∀ c ∈ arrow.cells,
      0 ≤ c.1 ∧ c.1 < w ∧ 0 ≤ c.2 ∧ c.2 < h := by
    intro c hc
    have := hfree c hc
    simp only [Grid.is_valid_and_free, Grid.is_valid, Bool.and_eq_true,
      decide_eq_true_eq] at this
    rw [← hw, ← hh]
    exact this.1
  have hnotocc : ∀ c ∈ arrow.cells, c ∉ st.grid.occupied := by
    intro c hc
    have := hfree c hc
    simp only [Grid.is_valid_and_free, Grid.is_occupied, Bool.and_eq_true,
      Bool.not_eq_true', decide_eq_false_iff_not] at this
    exact this.2
  refine ⟨?_, ?_, ⟨?_, ?_⟩, ?_⟩
  · exact (markFold_dims arrow.cells arrow.id st.grid).1.trans hw
  · exact (markFold_dims arrow.cells arrow.id st.grid).2.trans hh
  · intro cs hcs
    simp only [commitArrow, List.map_append, List.map_cons, List.map_nil,
      List.mem_append, List.mem_singleton] at hcs
    rcases hcs with hcs | rfl
    · exact heach cs hcs
    · exact ⟨hnd, hbounds⟩
  · simp only [commitArrow, List.map_append, List.map_cons, List.map_nil]
    rw [List.pairwise_append]
    refine ⟨hpair, List.pairwise_singleton _ _, ?_⟩
    intro cs hcs cs2 hcs2 c hc
    simp only [List.mem_singleton] at hcs2
    subst hcs2
    obtain ⟨a, ha, rfl⟩ := List.mem_map.mp hcs
    intro hca
    exact hnotocc c hca (hocc a ha c hc)
  · intro a ha c hc
    simp only [commitArrow] at ha ⊢
    rw [markFold_occupied]
    rcases List.mem_append.mp ha with ha | ha
    · exact Or.inl (hocc a ha c hc)
    · simp only [List.mem_singleton] at ha
      subst ha
      exact Or.inr hc

/-- The per-cell body of the layer pass preserves the invariant. -/
theorem processLayerCell_inv (w h target : ℤ) (st : GenState)
    (pos : Cell) (st' : GenState)
    (hrun : processLayerCell target st pos = some st')
    (hinv : genInv w h st) : genInv w h st' := by
  unfold processLayerCell at hrun
  by_cases hocc : st.grid.is_occupied pos
  · rw [if_pos hocc] at hrun
    cases hrun
    exact hinv
  · rw [if_neg hocc] at hrun
    simp only [Option.bind_eq_bind] at hrun
    rcases hg : grow_arrow_strict_direction pos
        (get_outward_direction pos st.grid) target st.grid st.rngs with _ | r
    · rw [hg] at hrun
      cases hrun
    · rw [hg] at hrun
      simp only [Option.some_bind] at hrun
      rcases hr1 : r.1 with _ | ga
      · rw [hr1] at hrun
        cases hrun
        exact ⟨hinv.1, hinv.2.1, hinv.2.2.1, hinv.2.2.2⟩
      · rw [hr1] at hrun
        replace hrun : (if DAG.would_create_cycle st.dag (mkArrowId st.arrow_id)
            (find_blocking_arrows ⟨mkArrowId st.arrow_id, ga.cells, ga.direction⟩
              st.grid) = true
          then some { st with rngs := r.2 }
          else some (commitArrow { st with rngs := r.2 }
            ⟨mkArrowId st.arrow_id, ga.cells, ga.direction⟩
            (find_blocking_arrows ⟨mkArrowId st.arrow_id, ga.cells, ga.direction⟩
              st.grid) r.2)) = some st' := hrun
        by_cases hcyc : DAG.would_create_cycle st.dag (mkArrowId st.arrow_id)
          (find_blocking_arrows ⟨mkArrowId st.arrow_id, ga.cells, ga.direction⟩
            st.grid)
        · rw [if_pos hcyc] at hrun
          cases hrun
          exact ⟨hinv.1, hinv.2.1, hinv.2.2.1, hinv.2.2.2⟩
        · rw [if_neg hcyc] at hrun
          cases hrun
          have hok := grow_cells_ok pos (get_outward_direction pos st.grid)
            target st.grid st.rngs ga r.2 (by rw [hg, ← hr1])
          exact commitArrow_inv w h _ _ _ _
            ⟨hinv.1, hinv.2.1, hinv.2.2.1, hinv.2.2.2⟩ hok.1 hok.2

/-- The direction-trying loop of the final sweep preserves the
invariant. -/
theorem sweepTryDirs_inv (w h : ℤ) (pos : Cell) :
    ∀ (dirs : List Dir) (st st' : GenState),
    sweepTryDirs pos dirs st = some st' →
    genInv w h st → genInv w h st' := by
  intro dirs
  induction dirs with
  | nil =>
    intro st st' hrun hinv
    cases hrun
    exact hinv
  | cons d rest ih =>
    intro st st' hrun hinv
    simp only [sweepTryDirs, Option.bind_eq_bind] at hrun
    rcases hg : grow_arrow_strict_direction pos d 2 st.grid st.rngs with _ | r
    · rw [hg] at hrun
      cases hrun
    · rw [hg] at hrun
      simp only [Option.some_bind] at hrun
      rcases hr1 : r.1 with _ | ga
      · rw [hr1] at hrun
        exact ih _ _ hrun ⟨hinv.1, hinv.2.1, hinv.2.2.1, hinv.2.2.2⟩
      · rw [hr1] at hrun
        replace hrun : (if (!DAG.would_create_cycle st.dag (mkArrowId st.arrow_id)
            (find_blocking_arrows ⟨mkArrowId st.arrow_id, ga.cells, ga.direction⟩
              st.grid)) = true
          then some (commitArrow { st with rngs := r.2 }
            ⟨mkArrowId st.arrow_id, ga.cells, ga.direction⟩
            (find_blocking_arrows ⟨mkArrowId st.arrow_id, ga.cells, ga.direction⟩
              st.grid) r.2)
          else sweepTryDirs pos rest { st with rngs := r.2 }) = some st' := hrun
        by_cases hcyc : (!DAG.would_create_cycle st.dag (mkArrowId st.arrow_id)
          (find_blocking_arrows ⟨mkArrowId st.arrow_id, ga.cells, ga.direction⟩
            st.grid)) = true
        · rw [if_pos hcyc] at hrun
          cases hrun
          have hok := grow_cells_ok pos d 2 st.grid st.rngs ga r.2
            (by rw [hg, ← hr1])
          exact commitArrow_inv w h _ _ _ _
            ⟨hinv.1, hinv.2.1, hinv.2.2.1, hinv.2.2.2⟩ hok.1 hok.2
        · rw [if_neg hcyc] at hrun
          exact ih _ _ hrun ⟨hinv.1, hinv.2.1, hinv.2.2.1, hinv.2.2.2⟩

/-- One sweep cell preserves the invariant. -/
theorem sweepCell_inv (w h : ℤ) (st : GenState) (pos : Cell)
    (st' : GenState) (hrun : sweepCell st pos = some st')
    (hinv : genInv w h st) : genInv w h st' := by
  unfold sweepCell at hrun
  by_cases hocc : st.grid.is_occupied pos
  · rw [if_pos hocc] at hrun
    cases hrun
    exact hinv
  · rw [if_neg hocc] at hrun
    simp only [Option.bind_eq_bind] at hrun
    rcases hsh : SeededRandom.shuffle DIRECTIONS st.rngs with _ | sh
    · rw [hsh] at hrun
      cases hrun
    · rw [hsh] at hrun
      simp only [Option.some_bind] at hrun
      exact sweepTryDirs_inv w h pos sh.1 _ _ hrun
        ⟨hinv.1, hinv.2.1, hinv.2.2.1, hinv.2.2.2⟩

/-- An `Option`-monad `foldlM` whose step preserves a property
preserves it end to end. -/
theorem foldlM_inv {α : Type} (f : GenState → α → Option GenState)
    (P : GenState → Prop)
    (hf : ∀ st x st', f st x = some st' → P st → P st') :
    ∀ (l : List α) (st st' : GenState),
    l.foldlM f st = some st' → P st → P st' := by
  intro l
  induction l with
  | nil =>
    intro st st' hrun hP
    cases hrun
    exact hP
  | cons x rest ih =>
    intro st st' hrun hP
    simp only [List.foldlM_cons, Option.bind_eq_bind] at hrun
    rcases hx : f st x with _ | st2
    · rw [hx] at hrun
      cases hrun
    · rw [hx] at hrun
      simp only [Option.some_bind] at hrun
      exact ih st2 st' hrun (hf st x st2 hx hP)

/-- One whole layer of the center-outward pass preserves the
invariant. -/
theorem processLayer_inv (w h max_length : ℤ) (total : ℕ)
    (st : GenState) (ic : ℕ × List Cell) (st' : GenState)
    (hrun : processLayer max_length total st ic = some st')
    (hinv : genInv w h st) : genInv w h st' := by
  unfold processLayer at hrun
  simp only [Option.bind_eq_bind] at hrun
  rcases hsh : SeededRandom.shuffle ic.2 st.rngs with _ | sh
  · rw [hsh] at hrun
    cases hrun
  · rw [hsh] at hrun
    simp only [Option.some_bind] at hrun
    exact foldlM_inv _ (genInv w h)
      (fun s2 x s2' hx hP => processLayerCell_inv w h _ s2 x s2' hx hP)
      sh.1 _ _ hrun ⟨hinv.1, hinv.2.1, hinv.2.2.1, hinv.2.2.2⟩

/-- The arrows produced by the DAG-first generator are wellformed:
pairwise-disjoint duplicate-free cell lists inside the board. -/
theorem generate_level_dag_first_wf (w h max_length s : ℤ)
    (out : List Arrow × DAGT × ℤ)
    (hrun : generate_level_dag_first w h max_length s = some out) :
    cellListsWellformed w h (out.1.map (fun a => a.cells)) := by
  unfold generate_level_dag_first at hrun
  simp only [Option.bind_eq_bind] at hrun
  rcases h1 : (get_onion_layers w h).enum.foldlM
      (processLayer max_length (get_onion_layers w h).length)
      ⟨⟨w, h, ∅, fun _ => none⟩, [], [], 0, s⟩ with _ | st1
  · rw [h1] at hrun
    cases hrun
  · rw [h1] at hrun
    simp only [Option.some_bind] at hrun
    rcases h2 : (scanCells w h).foldlM sweepCell st1 with _ | st2
    · rw [h2] at hrun
      cases hrun
    · rw [h2] at hrun
      simp only [Option.some_bind] at hrun
      have hinit : genInv w h ⟨⟨w, h, ∅, fun _ => none⟩, [], [], 0, s⟩ := by
        refine ⟨rfl, rfl, ⟨?_, ?_⟩, ?_⟩
        · intro cs hcs; cases hcs
        · exact List.Pairwise.nil
        · intro a ha; cases ha
      have hst1 : genInv w h st1 :=
        foldlM_inv _ (genInv w h)
          (fun s2 x s2' hx hP => processLayer_inv w h max_length _ s2 x s2' hx hP)
          _ _ st1 h1 hinit
      have hst2 : genInv w h st2 :=
        foldlM_inv _ (genInv w h)
          (fun s2 x s2' hx hP => sweepCell_inv w h s2 x s2' hx hP)
          _ _ st2 h2 hst1
      have : out = (st2.arrows, st2.dag, st2.rngs) := by
        injection hrun with h3
        exact h3.symm
      rw [this]
      exact hst2.2.2.1

/-- One step of `assign_special_types` appends exactly one arrow, with
the cells unchanged. -/
theorem assignStep_shape (config : SpecialConfig)
    (st : List GenArrow × ℕ × ℤ) (a : GenArrow) :
    ∃ (a' : GenArrow) (n' : ℕ) (s' : ℤ),
      assignStep config st a = (st.1 ++ [a'], n', s') ∧ a'.cells = a.cells := by
  unfold assignStep
  dsimp only
  split_ifs <;> exact ⟨_, _, _, rfl, rfl⟩

/-- The special-type pass only re-decorates: the sequence of cell lists
is unchanged. -/
theorem assign_fold_cells (config : SpecialConfig) :
    ∀ (arrows : List GenArrow) (acc : List GenArrow) (n : ℕ) (s : ℤ),
    ((arrows.foldl (assignStep config) (acc, n, s)).1).map (fun a => a.cells) =
      acc.map (fun a => a.cells) ++ arrows.map (fun a => a.cells) := by
  intro arrows
  induction arrows with
  | nil => intro acc n s; simp
  | cons a rest ih =>
    intro acc n s
    simp only [List.foldl_cons]
    obtain ⟨a', n', s', hstep, hcells⟩ := assignStep_shape config (acc, n, s) a
    rw [hstep, ih]
    simp [hcells]

/-- `assign_special_types` preserves the cell lists. -/
theorem assign_special_types_cells (arrows : List GenArrow) (level s : ℤ) :
    ((assign_special_types arrows level s).1).map (fun a => a.cells) =
      arrows.map (fun a => a.cells) := by
  unfold assign_special_types
  rw [assign_fold_cells]
  simp

/-- C3 (amended): in every generated level the arrows' cell lists are
wellformed — duplicate-free, inside the board, and pairwise disjoint
(no cell belongs to two arrows).  Full coverage does NOT hold: cells
can be left uncovered. -/
theorem generate_level_wellformed (level : ℤ) (seed : Option ℤ) (L : Level)
    (hgen : generate_level level seed = some L) :
    cellListsWellformed L.width L.height
      (L.arrows.map (fun a => a.cells)) := by
  unfold generate_level at hgen
  simp only [Option.bind_eq_bind] at hgen
  rcases hg : generate_level_dag_first (get_grid_size level).1
      (get_grid_size level).2 (get_max_arrow_length level)
      (seed.getD level) with _ | g
  · rw [hg] at hgen
    cases hgen
  · rw [hg] at hgen
    simp only [Option.some_bind] at hgen
    rcases hd : DAG.get_depth g.2.1 with _ | depth
    · rw [hd] at hgen
      cases hgen
    · rw [hd] at hgen
      simp only [Option.some_bind, Option.some_inj] at hgen
      subst hgen
      show cellListsWellformed (get_grid_size level).1 (get_grid_size level).2
        (((assign_special_types _ level g.2.2).1).map (fun a => a.cells))
      rw [assign_special_types_cells]
      have hcolored : (g.1.enum.map (fun ia =>
          ({ id := ia.2.id, cells := ia.2.cells, direction := ia.2.direction,
             color := ARROW_COLORS.getD (ia.1 % ARROW_COLORS.length) "",
             type := "", frozen := none } : GenArrow))).map (fun a => a.cells) =
          g.1.map (fun a => a.cells) := by
        rw [List.map_map]
        have : ((fun (a : GenArrow) => a.cells) ∘ (fun ia : ℕ × Arrow =>
            ({ id := ia.2.id, cells := ia.2.cells, direction := ia.2.direction,
               color := ARROW_COLORS.getD (ia.1 % ARROW_COLORS.length) "",
               type := "", frozen := none } : GenArrow))) =
            ((fun (a : Arrow) => a.cells) ∘ Prod.snd) := rfl
        rw [this, ← List.map_map, List.enum_map_snd]
      rw [hcolored]
      exact generate_level_dag_first_wf (get_grid_size level).1
        (get_grid_size level).2 (get_max_arrow_length level)
        (seed.getD level) g hg

unseal Rat.mul Rat.inv Rat.add Rat.sub in
/-- Witness for `generate_level_wellformed`: the level generated at
index 1 with seed 2 — its five arrows' cell lists are certified
wellformed by the theorem. -/
theorem generate_level_wellformed_witness :
    cellListsWellformed (4 : ℤ) (4 : ℤ)
      (([⟨"a0", [(2, 2), (2, 1), (2, 0), (1, 0)], .up, "#FF6B6B", "normal", none⟩,
        ⟨"a1", [(1, 2), (0, 2), (0, 3), (1, 3)], .left, "#4ECDC4", "normal", none⟩,
        ⟨"a2", [(3, 1), (3, 0)], .up, "#45B7D1", "normal", none⟩,
        ⟨"a3", [(0, 0), (0, 1)], .down, "#96CEB4", "normal", none⟩,
        ⟨"a4", [(3, 2), (3, 3)], .down, "#FFEAA7", "normal", none⟩] :
        List GenArrow).map (fun a => a.cells)) :=
  generate_level_wellformed 1 (some 2)
    ⟨1, 2, 4, 4,
      [⟨"a0", [(2, 2), (2, 1), (2, 0), (1, 0)], .up, "#FF6B6B", "normal", none⟩,
       ⟨"a1", [(1, 2), (0, 2), (0, 3), (1, 3)], .left, "#4ECDC4", "normal", none⟩,
       ⟨"a2", [(3, 1), (3, 0)], .up, "#45B7D1", "normal", none⟩,
       ⟨"a3", [(0, 0), (0, 1)], .down, "#96CEB4", "normal", none⟩,
       ⟨"a4", [(3, 2), (3, 3)], .down, "#FFEAA7", "normal", none⟩],
      ⟨3 / 2, 5, 0, 0, "1-2"⟩⟩
    (by decide)

unseal Rat.mul Rat.inv Rat.add Rat.sub in
/-- Counterexample to C3 as stated: the level generated at index 1 with
seed 2 is a 4×4 board whose five arrows cover only 14 cells — the
in-bounds cell `(1, 1)` belongs to no arrow. -/
theorem generate_level_coverage_counterexample :
    (generate_level 1 (some 2)).map
        (fun L => ((L.width, L.height), L.arrows.map GenArrow.core)) =
      some ((4, 4), lvl1arrows) ∧
    (∀ a ∈ lvl1arrows, ((1 : ℤ), (1 : ℤ)) ∉ a.cells) ∧
    ((0 : ℤ) ≤ 1 ∧ (1 : ℤ) < 4) :=
  ⟨by decide, by decide, by decide⟩
